import Mathlib

set_option maxRecDepth 1000000

/-!
Verification of the versioned cryptographic set accumulator library
(`dca-bench`): a shallow embedding of its data model (OutPoint identity,
CellStatus lifecycle), its versioned RocksDB store adapters, the MMR /
canonical-SMT / live-SMT accumulator engines, and the branch-node codecs,
together with theorems settling the specification's claims about them.

Bytes are modelled as natural numbers (`< 256` where it matters) and byte
strings as `List Nat`.  Hashing is the library's blake2b-256 (no key, no
personalisation), implemented concretely below so that theorems can be
evaluated on concrete inputs.
-/

/-- Byte strings: lists of naturals (each intended `< 256`). -/
abbrev Bytes := List Nat

/-- Little-endian encoding of `n` into `w` bytes (as `u64::to_le_bytes` /
`u32::to_le_bytes` do, truncating above `256 ^ w`). -/
def leBytes : Nat → Nat → Bytes
  | 0, _ => []
  | w + 1, n => (n % 256) :: leBytes w (n / 256)

/-- `u64::to_le_bytes`. -/
def le8 (n : Nat) : Bytes := leBytes 8 n

/-- `u32::to_le_bytes`. -/
def le4 (n : Nat) : Bytes := leBytes 4 n

/-- Big-endian encoding of `n` into `w` bytes (as `u64::to_be_bytes`). -/
def beBytes : Nat → Nat → Bytes
  | 0, _ => []
  | w + 1, n => (n / 256 ^ w) :: beBytes w (n % 256 ^ w)

/-- `u64::to_be_bytes`. -/
def be8 (n : Nat) : Bytes := beBytes 8 n

/-- `u64::from_be_bytes`. -/
def beVal (l : Bytes) : Nat := l.foldl (fun a b => a * 256 + b) 0

/-- `u64::from_le_bytes`. -/
def leVal (l : Bytes) : Nat := l.foldr (fun b acc => b + 256 * acc) 0

/-! ## blake2b-256

The hashing primitive used throughout the library: `blake2b_rs`'s
`Blake2bBuilder::new(32).build()`, i.e. RFC 7693 BLAKE2b with no key and a
32-byte digest.  64-bit words are naturals reduced modulo `2 ^ 64`. -/

/-- Addition modulo `2 ^ 64`. -/
def wAdd (a b : Nat) : Nat := (a + b) % 2 ^ 64

/-- Rotate a 64-bit word right by `n` bits. -/
def rotr64 (x n : Nat) : Nat := (x >>> n) ||| ((x <<< (64 - n)) % 2 ^ 64)

/-- The BLAKE2b initialisation vector. -/
def blakeIV : List Nat :=
  [0x6a09e667f3bcc908, 0xbb67ae8584caa73b, 0x3c6ef372fe94f82b, 0xa54ff53a5f1d36f1,
   0x510e527fade682d1, 0x9b05688c2b3e6c1f, 0x1f83d9abfb41bd6b, 0x5be0cd19137e2179]

/-- The BLAKE2b message schedule. -/
def blakeSigma : List (List Nat) :=
  [[0, 1, 2, 3, 4, 5, 6, 7, 8, 9, 10, 11, 12, 13, 14, 15],
   [14, 10, 4, 8, 9, 15, 13, 6, 1, 12, 0, 2, 11, 7, 5, 3],
   [11, 8, 12, 0, 5, 2, 15, 13, 10, 14, 3, 6, 7, 1, 9, 4],
   [7, 9, 3, 1, 13, 12, 11, 14, 2, 6, 5, 10, 4, 0, 15, 8],
   [9, 0, 5, 7, 2, 4, 10, 15, 14, 1, 11, 12, 6, 8, 3, 13],
   [2, 12, 6, 10, 0, 11, 8, 3, 4, 13, 7, 5, 15, 14, 1, 9],
   [12, 5, 1, 15, 14, 13, 4, 10, 0, 7, 6, 3, 9, 2, 8, 11],
   [13, 11, 7, 14, 12, 1, 3, 9, 5, 0, 15, 4, 8, 6, 2, 10],
   [6, 15, 14, 9, 11, 3, 0, 8, 12, 2, 13, 7, 1, 4, 10, 5],
   [10, 2, 8, 4, 7, 6, 1, 5, 15, 11, 9, 14, 3, 12, 13, 0]]

/-- The BLAKE2b mixing function `G` acting on the 16-word work vector. -/
def blakeG (v : List Nat) (a b c d x y : Nat) : List Nat :=
  let va := wAdd (wAdd (v.getD a 0) (v.getD b 0)) x
  let vd := rotr64 ((v.getD d 0) ^^^ va) 32
  let vc := wAdd (v.getD c 0) vd
  let vb := rotr64 ((v.getD b 0) ^^^ vc) 24
  let va2 := wAdd (wAdd va vb) y
  let vd2 := rotr64 (vd ^^^ va2) 16
  let vc2 := wAdd vc vd2
  let vb2 := rotr64 (vb ^^^ vc2) 63
  (((v.set a va2).set b vb2).set c vc2).set d vd2

/-- One BLAKE2b round over the work vector `v`, message words `m`. -/
def blakeRound (m v : List Nat) (r : Nat) : List Nat :=
  let s := blakeSigma.getD (r % 10) []
  let mi := fun i => m.getD (s.getD i 0) 0
  let v1 := blakeG v 0 4 8 12 (mi 0) (mi 1)
  let v2 := blakeG v1 1 5 9 13 (mi 2) (mi 3)
  let v3 := blakeG v2 2 6 10 14 (mi 4) (mi 5)
  let v4 := blakeG v3 3 7 11 15 (mi 6) (mi 7)
  let v5 := blakeG v4 0 5 10 15 (mi 8) (mi 9)
  let v6 := blakeG v5 1 6 11 12 (mi 10) (mi 11)
  let v7 := blakeG v6 2 7 8 13 (mi 12) (mi 13)
  blakeG v7 3 4 9 14 (mi 14) (mi 15)

/-- The BLAKE2b compression function `F` on a 128-byte block (already
zero-padded), with byte counter `t` and finalisation flag `f`. -/
def blakeCompress (h : List Nat) (block : Bytes) (t : Nat) (f : Bool) : List Nat :=
  let m := (List.range 16).map (fun i => leVal ((block.drop (8 * i)).take 8))
  let v0 := h ++ blakeIV
  let v1 := v0.set 12 ((v0.getD 12 0) ^^^ (t % 2 ^ 64))
  let v2 := v1.set 13 ((v1.getD 13 0) ^^^ (t / 2 ^ 64))
  let v3 := if f then v2.set 14 ((v2.getD 14 0) ^^^ (2 ^ 64 - 1)) else v2
  let v4 := (List.range 12).foldl (blakeRound m) v3
  (List.range 8).map (fun i => (h.getD i 0) ^^^ (v4.getD i 0) ^^^ (v4.getD (i + 8) 0))

/-- Zero-pad a block to 128 bytes. -/
def padTo128 (b : Bytes) : Bytes := b ++ List.replicate (128 - b.length) 0

/-- Split a message into 128-byte blocks, structurally on a fuel bound (the
fuel `l.length` always suffices since every step consumes 128 bytes). -/
def chunk128Aux : Nat → Bytes → List Bytes
  | 0, l => [l]
  | fuel + 1, l => if l.length ≤ 128 then [l] else l.take 128 :: chunk128Aux fuel (l.drop 128)

/-- Split a message into 128-byte blocks (one possibly-short final block; an
empty message yields a single empty block, as RFC 7693 prescribes). -/
def chunk128 (l : Bytes) : List Bytes := chunk128Aux l.length l

/-- Fold the compression function over the message blocks; `t` counts the
bytes already consumed. -/
def blakeChunks : List Nat → List Bytes → Nat → List Nat
  | h, [], _ => h
  | h, [b], t => blakeCompress h (padTo128 b) (t + b.length) true
  | h, b :: b2 :: rest, t => blakeChunks (blakeCompress h (padTo128 b) (t + 128) false) (b2 :: rest) (t + 128)

/-- The BLAKE2b-256 initial state: `IV0 xor 0x01010000 xor nn` with digest
length `nn = 32` and no key. -/
def blakeH0 : List Nat :=
  (0x6a09e667f3bcc908 ^^^ 0x01010020) :: blakeIV.drop 1

/-- blake2b-256 of a byte string (`new_blake2b` in `lib.rs`). -/
def blake2b (msg : Bytes) : Bytes :=
  let hs := blakeChunks blakeH0 (chunk128 msg) 0
  (((List.range 8).map (fun i => le8 (hs.getD i 0))).flatten).take 32

/-! ## Lexicographic byte order

RocksDB's default comparator orders keys by bytewise lexicographic
comparison; the versioned store adapters rely on it for their reverse range
scans. -/

/-- Bytewise lexicographic `≤` on byte strings (RocksDB's key order). -/
def lexLe : Bytes → Bytes → Bool
  | [], _ => true
  | _ :: _, [] => false
  | a :: as, b :: bs => if a < b then true else if a = b then lexLe as bs else false

@[simp] theorem lexLe_nil (l : Bytes) : lexLe [] l = true := by cases l <;> rfl

theorem lexLe_refl (l : Bytes) : lexLe l l = true := by
  induction l with
  | nil => rfl
  | cons a as ih => simp [lexLe, ih]

theorem lexLe_total (a b : Bytes) : lexLe a b = true ∨ lexLe b a = true := by
  induction a generalizing b with
  | nil => left; simp
  | cons x xs ih =>
    cases b with
    | nil => right; simp
    | cons y ys =>
      rcases Nat.lt_trichotomy x y with h | h | h
      · left; simp [lexLe, h]
      · subst h
        rcases ih ys with h2 | h2
        · left; simp [lexLe, h2]
        · right; simp [lexLe, h2]
      · right; simp [lexLe, h]

theorem lexLe_antisymm {a b : Bytes} (h1 : lexLe a b = true) (h2 : lexLe b a = true) :
    a = b := by
  induction a generalizing b with
  | nil => cases b with
    | nil => rfl
    | cons y ys => simp [lexLe] at h2
  | cons x xs ih =>
    cases b with
    | nil => simp [lexLe] at h1
    | cons y ys =>
      rcases Nat.lt_trichotomy x y with h | h | h
      · simp [lexLe, show ¬ y < x by omega, show ¬ y = x by omega] at h2
      · subst h
        simp only [lexLe, lt_irrefl, if_neg, if_pos rfl, if_false] at h1 h2
        simp [ih h1 h2]
      · simp [lexLe, show ¬ x < y by omega, show ¬ x = y by omega] at h1

theorem lexLe_trans {a b c : Bytes} (h1 : lexLe a b = true) (h2 : lexLe b c = true) :
    lexLe a c = true := by
  induction a generalizing b c with
  | nil => simp
  | cons x xs ih =>
    cases b with
    | nil => simp [lexLe] at h1
    | cons y ys =>
      cases c with
      | nil => simp [lexLe] at h2
      | cons z zs =>
        rcases Nat.lt_trichotomy x y with h | h | h
        · rcases Nat.lt_trichotomy y z with h' | h' | h'
          · simp [lexLe, show x < z by omega]
          · subst h'; simp [lexLe, h]
          · simp [lexLe, show ¬ y < z by omega, show ¬ y = z by omega] at h2
        · subst h
          simp only [lexLe, lt_irrefl, if_neg, if_pos rfl, if_false] at h1
          rcases Nat.lt_trichotomy x z with h' | h' | h'
          · simp [lexLe, h']
          · subst h'
            simp only [lexLe, lt_irrefl, if_neg, if_pos rfl, if_false] at h2 ⊢
            exact ih h1 h2
          · simp [lexLe, show ¬ x < z by omega, show ¬ x = z by omega] at h2
        · simp [lexLe, show ¬ x < y by omega, show ¬ x = y by omega] at h1

theorem lexLe_append_cancel (k a b : Bytes) : lexLe (k ++ a) (k ++ b) = lexLe a b := by
  induction k with
  | nil => simp
  | cons x xs ih => simp [lexLe, ih]

/-- A byte string lying (in key order) between two extensions of `k` itself
extends `k`. -/
theorem isPrefixOf_of_between {k a b w : Bytes}
    (h1 : lexLe (k ++ a) w = true) (h2 : lexLe w (k ++ b) = true) :
    k.isPrefixOf w = true := by
  induction k generalizing w with
  | nil => simp [List.isPrefixOf]
  | cons x xs ih =>
    cases w with
    | nil => simp [lexLe] at h1
    | cons y ys =>
      simp only [List.cons_append] at h1 h2
      rcases Nat.lt_trichotomy x y with h | h | h
      · simp [lexLe, show ¬ y < x by omega, show ¬ y = x by omega] at h2
      · subst h
        simp only [lexLe, lt_irrefl, if_neg, if_pos rfl, if_false] at h1 h2
        simpa [List.isPrefixOf] using ih h1 h2
      · simp [lexLe, show ¬ x < y by omega, show ¬ x = y by omega] at h1

theorem beBytes_length (w n : Nat) : (beBytes w n).length = w := by
  induction w generalizing n with
  | zero => rfl
  | succ w ih => simp [beBytes, ih]

/-- Fixed-width big-endian encoding turns numeric order into key order: the
property the sequence-suffixed key scheme relies on. -/
theorem lexLe_beBytes (w : Nat) {a b : Nat} (ha : a < 256 ^ w) (hb : b < 256 ^ w) :
    lexLe (beBytes w a) (beBytes w b) = decide (a ≤ b) := by
  induction w generalizing a b with
  | zero =>
    simp only [pow_zero, Nat.lt_one_iff] at ha hb
    subst ha; subst hb; rfl
  | succ w ih =>
    have hp : 0 < 256 ^ w := Nat.pos_pow_of_pos w (by norm_num)
    have hqa := Nat.div_add_mod a (256 ^ w)
    have hqb := Nat.div_add_mod b (256 ^ w)
    have hra : a % 256 ^ w < 256 ^ w := Nat.mod_lt _ hp
    have hrb : b % 256 ^ w < 256 ^ w := Nat.mod_lt _ hp
    have hpow : 256 ^ (w + 1) = 256 ^ w * 256 := by ring
    rw [hpow] at ha hb
    simp only [beBytes, lexLe]
    rcases Nat.lt_trichotomy (a / 256 ^ w) (b / 256 ^ w) with h | h | h
    · rw [if_pos h]
      have : a ≤ b := le_of_lt (Nat.lt_of_div_lt_div h)
      simp [this]
    · rw [if_neg (by omega), if_pos h, ih hra hrb]
      obtain ⟨X, hXa, hXb⟩ : ∃ X, a = X + a % 256 ^ w ∧ b = X + b % 256 ^ w :=
        ⟨256 ^ w * (a / 256 ^ w), by omega, by rw [h]; omega⟩
      exact decide_eq_decide.mpr (by omega)
    · rw [if_neg (by omega), if_neg (by omega)]
      have : ¬ a ≤ b := not_le_of_lt (Nat.lt_of_div_lt_div h)
      simp [this]

theorem beBytes_inj (w : Nat) {a b : Nat} (ha : a < 256 ^ w) (hb : b < 256 ^ w)
    (h : beBytes w a = beBytes w b) : a = b := by
  have h1 : lexLe (beBytes w a) (beBytes w b) = true := h ▸ lexLe_refl _
  have h2 : lexLe (beBytes w b) (beBytes w a) = true := h ▸ lexLe_refl _
  rw [lexLe_beBytes w ha hb] at h1
  rw [lexLe_beBytes w hb ha] at h2
  simp at h1 h2
  omega

theorem beVal_beBytes_aux (w : Nat) {r : Nat} (c : Nat) (hr : r < 256 ^ w) :
    (beBytes w r).foldl (fun a b => a * 256 + b) c = c * 256 ^ w + r := by
  induction w generalizing r c with
  | zero =>
    simp only [pow_zero, Nat.lt_one_iff] at hr
    subst hr; simp [beBytes, beVal]
  | succ w ih =>
    have hp : 0 < 256 ^ w := Nat.pos_pow_of_pos w (by norm_num)
    have hm : r % 256 ^ w < 256 ^ w := Nat.mod_lt _ hp
    have hd := Nat.div_add_mod r (256 ^ w)
    simp only [beBytes, List.foldl_cons, ih (c * 256 + r / 256 ^ w) hm]
    have hpow : 256 ^ (w + 1) = 256 ^ w * 256 := by ring
    rw [hpow]
    have hexp : (c * 256 + r / 256 ^ w) * 256 ^ w = c * (256 ^ w * 256) + 256 ^ w * (r / 256 ^ w) := by
      ring
    rw [hexp]
    linarith [hd]

/-- `u64::from_be_bytes` inverts `u64::to_be_bytes`. -/
theorem beVal_be8 {n : Nat} (h : n < 2 ^ 64) : beVal (be8 n) = n := by
  have : (256 : Nat) ^ 8 = 2 ^ 64 := by norm_num
  have := beVal_beBytes_aux 8 0 (r := n) (by omega)
  simpa [beVal, be8] using this

/-! ## The versioned store adapter

The RocksDB contents are modelled as an association list of physical
key/value pairs.  A point `put` overwrites the entry for an exact key; the
versioned `get` performs the reverse range scan of
`DefaultStore::get` (`src/mmr/store.rs` 76-84 and `src/smt/store.rs` 78-85):
RocksDB's `IteratorMode::From(start, Direction::Reverse)` seeks to the entry
with the greatest key `≤ start` and iterates downwards; `take_while`
followed by `next` inspects only that first entry. -/

abbrev Entries := List (Bytes × Bytes)

/-- RocksDB point `put`: overwrite the value stored under exactly `k`. -/
def dbPut (entries : Entries) (k v : Bytes) : Entries :=
  (k, v) :: entries.filter (fun e => decide (e.1 ≠ k))

/-- RocksDB point `get`. -/
def dbGet (entries : Entries) (k : Bytes) : Option Bytes :=
  (entries.find? (fun e => decide (e.1 = k))).map (·.2)

/-- The first entry yielded by a reverse iterator positioned at `start`: the
entry with the greatest key `≤ start` (RocksDB `seek_for_prev`). -/
def maxEntryLe (start : Bytes) : Entries → Option (Bytes × Bytes)
  | [] => none
  | e :: rest =>
    let r := maxEntryLe start rest
    if lexLe e.1 start then
      match r with
      | none => some e
      | some m => if lexLe e.1 m.1 then some m else some e
    else r

/-- `DefaultStore::get`: scan in reverse from `key ‖ sequence_BE` and return
the first value whose key still has `key` as a prefix. -/
def storeGet (entries : Entries) (sequence : Nat) (key : Bytes) : Option Bytes :=
  match maxEntryLe (key ++ be8 sequence) entries with
  | some e => if key.isPrefixOf e.1 then some e.2 else none
  | none => none

/-- `DefaultStore::put`: write under physical key `key ‖ sequence_BE`. -/
def storePut (entries : Entries) (sequence : Nat) (key v : Bytes) : Entries :=
  dbPut entries (key ++ be8 sequence) v

theorem maxEntryLe_mem {start : Bytes} {entries : Entries} {m : Bytes × Bytes}
    (h : maxEntryLe start entries = some m) : m ∈ entries ∧ lexLe m.1 start = true := by
  induction entries with
  | nil => simp [maxEntryLe] at h
  | cons e rest ih =>
    simp only [maxEntryLe] at h
    by_cases hle : lexLe e.1 start = true
    · rw [if_pos hle] at h
      cases hr : maxEntryLe start rest with
      | none => rw [hr] at h; cases h; exact ⟨List.mem_cons_self _ _, hle⟩
      | some m' =>
        rw [hr] at h
        simp only [] at h
        by_cases h2 : lexLe e.1 m'.1 = true
        · rw [if_pos h2] at h; cases h
          exact ⟨List.mem_cons_of_mem _ (ih hr).1, (ih hr).2⟩
        · rw [if_neg h2] at h; cases h
          exact ⟨List.mem_cons_self _ _, hle⟩
    · rw [if_neg hle] at h
      exact ⟨List.mem_cons_of_mem _ (ih h).1, (ih h).2⟩

theorem maxEntryLe_isSome {start : Bytes} {entries : Entries} {e : Bytes × Bytes}
    (he : e ∈ entries) (h : lexLe e.1 start = true) :
    (maxEntryLe start entries).isSome = true := by
  induction entries with
  | nil => cases he
  | cons e0 rest ih =>
    simp only [maxEntryLe]
    by_cases hle : lexLe e0.1 start = true
    · rw [if_pos hle]
      cases hr : maxEntryLe start rest <;> simp only []
      · rfl
      · split <;> rfl
    · rw [if_neg hle]
      rcases List.mem_cons.mp he with rfl | hmem
      · exact absurd h hle
      · exact ih hmem

theorem maxEntryLe_ge {start : Bytes} {entries : Entries} {m e : Bytes × Bytes}
    (h : maxEntryLe start entries = some m) (he : e ∈ entries)
    (hle : lexLe e.1 start = true) : lexLe e.1 m.1 = true := by
  induction entries generalizing m with
  | nil => cases he
  | cons e0 rest ih =>
    simp only [maxEntryLe] at h
    rcases List.mem_cons.mp he with rfl | hmem
    · rw [if_pos hle] at h
      cases hr : maxEntryLe start rest with
      | none =>
        rw [hr] at h
        obtain rfl : e = m := Option.some.inj h
        exact lexLe_refl _
      | some m' =>
        rw [hr] at h
        simp only [] at h
        by_cases h2 : lexLe e.1 m'.1 = true
        · rw [if_pos h2] at h
          obtain rfl : m' = m := Option.some.inj h
          exact h2
        · rw [if_neg h2] at h
          obtain rfl : e = m := Option.some.inj h
          exact lexLe_refl _
    · by_cases hle0 : lexLe e0.1 start = true
      · rw [if_pos hle0] at h
        cases hr : maxEntryLe start rest with
        | none =>
          rw [hr] at h
          exact absurd (maxEntryLe_isSome hmem hle) (by simp [hr])
        | some m' =>
          rw [hr] at h
          simp only [] at h
          by_cases h2 : lexLe e0.1 m'.1 = true
          · rw [if_pos h2] at h
            obtain rfl : m' = m := Option.some.inj h
            exact ih hr hmem
          · rw [if_neg h2] at h
            have hm := Option.some.inj h
            subst hm
            rcases lexLe_total e0.1 m'.1 with hc | hc
            · exact absurd hc h2
            · exact lexLe_trans (ih hr hmem) hc
      · rw [if_neg hle0] at h
        exact ih h hmem

/-- In a list whose first components are strictly increasing, members are
determined by their first component. -/
theorem pairwise_fst_inj {l : List (Nat × Bytes)} (hp : l.Pairwise (fun a b => a.1 < b.1))
    {x y : Nat × Bytes} (hx : x ∈ l) (hy : y ∈ l) (hxy : x.1 = y.1) : x = y := by
  induction l with
  | nil => cases hx
  | cons a rest ih =>
    rcases List.pairwise_cons.mp hp with ⟨ha, hrest⟩
    rcases List.mem_cons.mp hx with rfl | hx2
    · rcases List.mem_cons.mp hy with rfl | hy2
      · rfl
      · exact absurd hxy (by have := ha y hy2; omega)
    · rcases List.mem_cons.mp hy with rfl | hy2
      · exact absurd hxy.symm (by have := ha x hx2; omega)
      · exact ih hrest hx2 hy2

/-- `K` written at sequence `s` gives physical key `K ‖ s_BE`; comparing two
such keys under the scan order compares the sequences. -/
theorem lexLe_writeKey (K : Bytes) {s t : Nat} (hs : s < 2 ^ 64) (ht : t < 2 ^ 64) :
    lexLe (K ++ be8 s) (K ++ be8 t) = decide (s ≤ t) := by
  have h8 : (256 : Nat) ^ 8 = 2 ^ 64 := by norm_num
  rw [lexLe_append_cancel, be8, be8, lexLe_beBytes 8 (by omega) (by omega)]

/-- C1, amended: versioned read resolves "as of" semantics.  For a logical
key `K` whose physical extensions in the store are exactly the writes
`K ‖ sᵢ_BE ↦ vᵢ` (sequences strictly increasing and below `2 ^ 64`), and
such that no other physical key has `K` as a prefix — proper or not —
`DefaultStore::get` bound to sequence `S` returns the value written at the
greatest `sᵢ ≤ S`, and `none` when every write is later than `S`. -/
theorem spec_c1_versioned_read_amended (entries : Entries) (K : Bytes)
    (writes : List (Nat × Bytes)) (S : Nat) (hS : S < 2 ^ 64)
    (hw : ∀ sv ∈ writes, sv.1 < 2 ^ 64)
    (hsorted : writes.Pairwise (fun a b => a.1 < b.1))
    (hmem : ∀ sv ∈ writes, (K ++ be8 sv.1, sv.2) ∈ entries)
    (honly : ∀ e ∈ entries, K.isPrefixOf e.1 = true →
      ∃ sv ∈ writes, e = (K ++ be8 sv.1, sv.2)) :
    ((∀ sv ∈ writes, S < sv.1) → storeGet entries S K = none) ∧
    (∀ sv ∈ writes, sv.1 ≤ S → (∀ sv' ∈ writes, sv'.1 ≤ S → sv'.1 ≤ sv.1) →
      storeGet entries S K = some sv.2) := by
  constructor
  · intro hgt
    unfold storeGet
    cases hmax : maxEntryLe (K ++ be8 S) entries with
    | none => rfl
    | some m =>
      obtain ⟨hmMem, hmLe⟩ := maxEntryLe_mem hmax
      have hp : K.isPrefixOf m.1 = false := by
        by_contra hc
        have hp2 : K.isPrefixOf m.1 = true := by
          cases h : K.isPrefixOf m.1
          · exact absurd h hc
          · rfl
        obtain ⟨sv, hsv, rfl⟩ := honly m hmMem hp2
        rw [lexLe_writeKey K (hw sv hsv) hS] at hmLe
        have := hgt sv hsv
        simp at hmLe
        omega
      simp [hp]
  · intro sv hsv hle hmax
    have htargetLe : lexLe (K ++ be8 sv.1) (K ++ be8 S) = true := by
      rw [lexLe_writeKey K (hw sv hsv) hS]; simp [hle]
    have hsome := maxEntryLe_isSome (hmem sv hsv) htargetLe
    obtain ⟨m, hm⟩ := Option.isSome_iff_exists.mp hsome
    obtain ⟨hmMem, hmLe⟩ := maxEntryLe_mem hm
    have hge := maxEntryLe_ge hm (hmem sv hsv) htargetLe
    have hpfx : K.isPrefixOf m.1 = true := isPrefixOf_of_between hge hmLe
    obtain ⟨sv', hsv', rfl⟩ := honly m hmMem hpfx
    have h1 : sv'.1 ≤ S := by
      rw [lexLe_writeKey K (hw sv' hsv') hS] at hmLe
      simpa using hmLe
    have h2 : sv.1 ≤ sv'.1 := by
      rw [lexLe_append_cancel, be8, be8,
        lexLe_beBytes 8 (by have := hw sv hsv; norm_num; omega)
          (by have := hw sv' hsv'; norm_num; omega)] at hge
      simpa using hge
    have h3 : sv'.1 ≤ sv.1 := hmax sv' hsv' h1
    have : sv' = sv := pairwise_fst_inj hsorted hsv' hsv (by omega)
    subst this
    unfold storeGet
    rw [hm]
    simp [List.isPrefixOf_iff_prefix.mpr (List.prefix_append K _)]

/-- The all-zero 32-byte hash (`H256::zero()`). -/
def h256Zero : Bytes := List.replicate 32 0

/-- Store contents refuting C1 as stated: the logical key `[5]` was written
only at sequence `5`, and one other physical key equals `[5]` itself — which
does *not* have `[5]` as a proper prefix, so C1's precondition admits it. -/
def c1CexEntries : Entries := [([5], [7]), ([5] ++ be8 5, [9])]

/-- C1, counterexample: with the single write to `K = [5]` made at sequence
`5` and no other key having `K` as a *proper* prefix, a read bound to
sequence `2` must by the claim return `none` (no write has `sᵢ ≤ 2`), but
`DefaultStore::get` returns the value stored under the physical key `[5]`:
the reverse scan stops at it and `[5]` passes the `starts_with` test. -/
theorem spec_c1_counterexample :
    ([5] ++ be8 5, [9]) ∈ c1CexEntries ∧
    (∀ e ∈ c1CexEntries, e.1 = [5] ++ be8 5 ∨
      ¬ (([5] : Bytes).isPrefixOf e.1 = true ∧ e.1 ≠ [5])) ∧
    storeGet c1CexEntries 2 [5] = some [7] := by decide

/-- Store contents for the C1 witness: writes to `K = [5]` at sequences `1`
and `3`, plus an unrelated key. -/
def c1WitnessEntries : Entries :=
  [([9, 9], [1]), ([5] ++ be8 1, [10]), ([5] ++ be8 3, [11])]

/-- C1, witness: on a concrete store, a read bound to sequence `2` resolves
to the write at sequence `1` (the greatest write `≤ 2`). -/
theorem spec_c1_witness : storeGet c1WitnessEntries 2 [5] = some [10] :=
  (spec_c1_versioned_read_amended c1WitnessEntries [5] [(1, [10]), (3, [11])] 2
    (by decide) (by decide) (by decide) (by decide) (by decide)).2
    (1, [10]) (by decide) (by decide) (by decide)

/-! ## Store commit and re-open (C7)

`commit()` for the three store adapters, and `DefaultStore::new`'s read of
the persisted sequence counter.  The sequence counter is written with a
*point* put (not sequence-suffixed). -/

/-- A store adapter state: physical contents plus the in-memory sequence. -/
structure StoreState where
  entries : Entries
  sequence : Nat
deriving DecidableEq, Repr

/-- `SEQUENCE_KEY` of the MMR store (`src/mmr/store.rs`): the single byte 1. -/
def mmrSequenceKey : Bytes := [1]

/-- `SEQUENCE_KEY` of the canonical SMT store (`src/smt/store.rs`): the ASCII
bytes of the string SEQUENCE. -/
def smtSequenceKey : Bytes := [83, 69, 81, 85, 69, 78, 67, 69]

/-- `SEQUENCE_KEY` of the append-only SMT store
(`src/smt_append_only/store.rs`): the same ASCII bytes. -/
def aoSequenceKey : Bytes := [83, 69, 81, 85, 69, 78, 67, 69]

/-- `SEQUENCE_TO_ROOT_KEY` of the append-only SMT store: the ASCII bytes of
the string SEQUENCE_TO_ROOT. -/
def aoSequenceToRootKey : Bytes :=
  [83, 69, 81, 85, 69, 78, 67, 69, 95, 84, 79, 95, 82, 79, 79, 84]

/-- `DefaultStore::commit` of the MMR store (`src/mmr/store.rs` 97-103):
increment the in-memory sequence, then persist the new value. -/
def mmrStoreCommit (st : StoreState) : StoreState :=
  let s := st.sequence + 1
  ⟨dbPut st.entries mmrSequenceKey (be8 s), s⟩

/-- `DefaultStore::commit` of the canonical SMT store (`src/smt/store.rs`
99-105): increment the in-memory sequence, then persist the new value. -/
def smtStoreCommit (st : StoreState) : StoreState :=
  let s := st.sequence + 1
  ⟨dbPut st.entries smtSequenceKey (be8 s), s⟩

/-- `DefaultStore::commit` of the append-only SMT store
(`src/smt_append_only/store.rs` 108-118): persist `sequence → root` and the
*current* sequence under `SEQUENCE_KEY`, then increment in memory. -/
def aoStoreCommit (st : StoreState) (root : Bytes) : StoreState :=
  ⟨dbPut (dbPut st.entries (aoSequenceToRootKey ++ be8 st.sequence) root)
      aoSequenceKey (be8 st.sequence),
    st.sequence + 1⟩

/-- The sequence a fresh `DefaultStore::new` adapter reads back from a store:
the 8-byte big-endian value under the store's `SEQUENCE_KEY`, defaulting
to 0. -/
def storeNewSequence (seqKey : Bytes) (entries : Entries) : Nat :=
  match dbGet entries seqKey with
  | some v => beVal v
  | none => 0

theorem dbGet_dbPut (entries : Entries) (k v : Bytes) :
    dbGet (dbPut entries k v) k = some v := by
  simp [dbGet, dbPut]

/-- C7, amended: for the MMR and canonical SMT store adapters, `commit()`
increments the in-memory sequence and persists the incremented value, so a
fresh `new()` adapter reads back `sequence + 1`.  The append-only adapter
also increments its in-memory sequence but persists the *pre*-increment
value under `SEQUENCE_KEY`, so a fresh `new()` adapter reads back the old
sequence. -/
theorem spec_c7_commit_sequence_amended (st : StoreState) (root : Bytes)
    (h : st.sequence + 1 < 2 ^ 64) :
    ((mmrStoreCommit st).sequence = st.sequence + 1 ∧
      storeNewSequence mmrSequenceKey (mmrStoreCommit st).entries = st.sequence + 1) ∧
    ((smtStoreCommit st).sequence = st.sequence + 1 ∧
      storeNewSequence smtSequenceKey (smtStoreCommit st).entries = st.sequence + 1) ∧
    ((aoStoreCommit st root).sequence = st.sequence + 1 ∧
      storeNewSequence aoSequenceKey (aoStoreCommit st root).entries = st.sequence) := by
  refine ⟨⟨rfl, ?_⟩, ⟨rfl, ?_⟩, rfl, ?_⟩
  · simp [mmrStoreCommit, storeNewSequence, dbGet_dbPut, beVal_be8 h]
  · simp [smtStoreCommit, storeNewSequence, dbGet_dbPut, beVal_be8 h]
  · simp [aoStoreCommit, storeNewSequence, dbGet_dbPut, beVal_be8 (by omega : st.sequence < 2 ^ 64)]

/-- C7, counterexample: committing the append-only store at sequence 0
leaves an in-memory sequence of 1, but a re-opened adapter reads back 0 —
not the incremented value the claim promises for every adapter. -/
theorem spec_c7_counterexample :
    (aoStoreCommit ⟨[], 0⟩ h256Zero).sequence = 1 ∧
    storeNewSequence aoSequenceKey (aoStoreCommit ⟨[], 0⟩ h256Zero).entries = 0 ∧
    storeNewSequence aoSequenceKey (aoStoreCommit ⟨[], 0⟩ h256Zero).entries ≠ 1 := by
  decide

/-- C7, witness: the amended statement evaluated on an empty store at
sequence 0. -/
theorem spec_c7_witness :
    ((mmrStoreCommit ⟨[], 0⟩).sequence = 0 + 1 ∧
      storeNewSequence mmrSequenceKey (mmrStoreCommit ⟨[], 0⟩).entries = 0 + 1) ∧
    ((smtStoreCommit ⟨[], 0⟩).sequence = 0 + 1 ∧
      storeNewSequence smtSequenceKey (smtStoreCommit ⟨[], 0⟩).entries = 0 + 1) ∧
    ((aoStoreCommit ⟨[], 0⟩ h256Zero).sequence = 0 + 1 ∧
      storeNewSequence aoSequenceKey (aoStoreCommit ⟨[], 0⟩ h256Zero).entries = 0) :=
  spec_c7_commit_sequence_amended ⟨[], 0⟩ h256Zero (by decide)

/-! ## Data model: element identity and lifecycle (`src/lib.rs`) -/

/-- `OutPoint`: a 32-byte origin hash plus a 32-bit index. -/
structure OutPoint where
  txHash : Bytes
  index : Nat
deriving DecidableEq, Repr

/-- `OutPoint::hash` (`src/lib.rs` 53-62): blake2b-256 of
`tx_hash ‖ index_LE` (the hasher's sequential updates hash the
concatenation). -/
def OutPoint.hash (op : OutPoint) : Bytes := blake2b (op.txHash ++ le4 op.index)

/-- `CellStatus` (`src/lib.rs` 64-94): 16 bytes,
`created_by (u64 LE) ‖ consumed_by (u64 LE)`. -/
structure CellStatus where
  blockNumbers : Bytes
deriving DecidableEq, Repr

/-- `CellStatus::new_live`: all bytes `0xFF`, then the first 8 overwritten
with the creation number. -/
def CellStatus.newLive (createdBy : Nat) : CellStatus :=
  ⟨le8 createdBy ++ List.replicate 8 255⟩

/-- `CellStatus::new_dead`. -/
def CellStatus.newDead (createdBy consumedBy : Nat) : CellStatus :=
  ⟨le8 createdBy ++ le8 consumedBy⟩

/-- `CellStatus::is_live`: the consumed half is all `0xFF`. -/
def CellStatus.isLive (cs : CellStatus) : Bool :=
  (cs.blockNumbers.drop 8).all (fun b => b == 255)

/-- `CellStatus::mark_as_dead`: overwrite the consumed half. -/
def CellStatus.markAsDead (cs : CellStatus) (consumedBy : Nat) : CellStatus :=
  ⟨cs.blockNumbers.take 8 ++ le8 consumedBy⟩

/-- `ZERO_CELL_STATUS` (`src/smt/mod.rs` 10-12): the absent-leaf sentinel. -/
def zeroCellStatus : CellStatus := ⟨List.replicate 16 0⟩

/-- `Value::to_h256` for `CellStatus` (`src/smt/mod.rs` 14-25): the zero
status hashes to the zero digest, any other to blake2b-256 of its bytes. -/
def CellStatus.toH256 (cs : CellStatus) : Bytes :=
  if cs.blockNumbers = List.replicate 16 0 then h256Zero else blake2b cs.blockNumbers

/-- The error type (`AccumulatorError`, `src/lib.rs` 39-45); the
`InternalError` string payload is irrelevant to the claims and omitted. -/
inductive AccErr where
  | elementNotFound (i : Nat)
  | internalError
  | invalidCommitment
  | invalidProof
deriving DecidableEq, Repr

instance {ε α : Type} [DecidableEq ε] [DecidableEq α] : DecidableEq (Except ε α) :=
  fun x y =>
  match x, y with
  | .ok a, .ok b =>
    if h : a = b then isTrue (by rw [h]) else isFalse (fun hc => h (Except.ok.inj hc))
  | .error a, .error b =>
    if h : a = b then isTrue (by rw [h]) else isFalse (fun hc => h (Except.error.inj hc))
  | .ok _, .error _ => isFalse (fun hc => Except.noConfusion hc)
  | .error _, .ok _ => isFalse (fun hc => Except.noConfusion hc)

/-- An engine commitment: `(root, sequence)` (each engine defines an
identical `AccumulatorCommitment` struct). -/
structure AccumulatorCommitment where
  root : Bytes
  sequence : Nat
deriving DecidableEq, Repr

/-- Replace the binding of `k` in an association list (append if absent). -/
def assocSet {α β : Type} [DecidableEq α] : List (α × β) → α → β → List (α × β)
  | [], k, v => [(k, v)]
  | e :: rest, k, v => if e.1 = k then (k, v) :: rest else e :: assocSet rest k v

/-- Look up the binding of `k` in an association list. -/
def assocGet {α β : Type} [DecidableEq α] (l : List (α × β)) (k : α) : Option β :=
  (l.find? (fun e => decide (e.1 = k))).map (·.2)

/-! ## The MMR engine (`src/mmr/accumulator.rs`)

The external `merkle_mountain_range` crate is modelled by its interface: the
tree is the association of positions to the 32-byte leaf hashes the engine
pushed or updated (`push` allocates the next position — the crate's own
position numbering interleaves internal nodes, but no claim depends on the
numbering), and `get_root` is an opaque but executable digest of the leaf
sequence. -/

/-- `ELEMENT_KEY` (`src/mmr/store.rs` 9): the single byte 2. -/
def mmrElementKeyByte : Bytes := [2]

/-- The element-index record key
`ELEMENT_KEY ‖ out_point.hash() ‖ index_LE` (`src/mmr/accumulator.rs`
86-91 / 107-112). -/
def mmrElementKey (op : OutPoint) : Bytes :=
  mmrElementKeyByte ++ op.hash ++ le4 op.index

/-- The MMR leaf hash: `From<(&OutPoint, &CellStatus)> for H256`
(`src/mmr/accumulator.rs` 27-37) hashes
`tx_hash ‖ index_LE ‖ status.block_numbers` with a single hasher. -/
def mmrLeafHash (op : OutPoint) (cs : CellStatus) : Bytes :=
  blake2b (op.txHash ++ le4 op.index ++ cs.blockNumbers)

/-- The MMR engine state: the versioned store, the adapter sequence, and the
modelled tree (leaf map plus next free position). -/
structure MMRState where
  entries : Entries
  sequence : Nat
  leaves : List (Nat × Bytes)
  nextPos : Nat
deriving DecidableEq, Repr

/-- Model of the MMR crate's `get_root`: a digest of the leaf sequence (only
its equality behaviour matters to the embedded code). -/
def mmrRoot (st : MMRState) : Bytes :=
  blake2b (st.leaves.foldr (fun e acc => be8 e.1 ++ e.2 ++ acc) [])

/-- One iteration of `MMRAccumulator::add`'s loop (`src/mmr/accumulator.rs`
82-98): push the leaf for a live status at the captured sequence, then store
the index record `pos_LE ‖ status` under the element key. -/
def mmrAddStep (sequence : Nat) (s : MMRState) (op : OutPoint) : MMRState :=
  let cs := CellStatus.newLive sequence
  let pos := s.nextPos
  { s with
    leaves := s.leaves ++ [(pos, mmrLeafHash op cs)],
    nextPos := pos + 1,
    entries := storePut s.entries sequence (mmrElementKey op)
      (le8 pos ++ cs.blockNumbers) }

/-- `MMRAccumulator::add` (`src/mmr/accumulator.rs` 77-100): the sequence is
read once, then each element is pushed and indexed. -/
def mmrAdd (st : MMRState) (elements : List OutPoint) : MMRState :=
  elements.foldl (mmrAddStep st.sequence) st

/-- The resolution phase of `MMRAccumulator::delete` (lines 104-122): look
up every element's index record — reading only — and collect
`(pos, key, new_leaf_hash, new_status)`; fail with the index of the first
element without a record. -/
def mmrDeleteLookup (st : MMRState) (sequence : Nat) :
    Nat → List OutPoint → Except AccErr (List (Nat × Bytes × Bytes × CellStatus))
  | _, [] => .ok []
  | i, op :: rest =>
    let key := mmrElementKey op
    match storeGet st.entries st.sequence key with
    | some slice =>
      let pos := leVal (slice.take 8)
      let cs := CellStatus.markAsDead ⟨slice.drop 8⟩ sequence
      match mmrDeleteLookup st sequence (i + 1) rest with
      | .ok items => .ok ((pos, key, mmrLeafHash op cs, cs) :: items)
      | .error e => .error e
    | none => .error (.elementNotFound i)

/-- The mutation phase of `MMRAccumulator::delete` (lines 124-132): update
each leaf in place and rewrite its index record. -/
def mmrApplyDeletes (st : MMRState) (items : List (Nat × Bytes × Bytes × CellStatus)) :
    MMRState :=
  items.foldl (fun s it =>
    { s with
      leaves := assocSet s.leaves it.1 it.2.2.1,
      entries := storePut s.entries s.sequence it.2.1
        (le8 it.1 ++ it.2.2.2.blockNumbers) }) st

/-- `MMRAccumulator::delete` (`src/mmr/accumulator.rs` 102-134): resolve all
elements first, then apply the updates; an unresolved element aborts the
call before any mutation. -/
def mmrDelete (st : MMRState) (elements : List OutPoint) : MMRState × Option AccErr :=
  match mmrDeleteLookup st st.sequence 0 elements with
  | .ok items => (mmrApplyDeletes st items, none)
  | .error e => (st, some e)

/-- The modelled `MerkleProof` of the MMR engine's `AccumulatorProof`: the
crate proof is opaque; the engine-level data is the position list. -/
structure MMRProofM where
  posList : List Nat
deriving DecidableEq, Repr

/-- The resolution loop of `MMRAccumulator::proof` (lines 174-188). -/
def mmrProofLookup (st : MMRState) :
    Nat → List OutPoint → Except AccErr (List Nat)
  | _, [] => .ok []
  | i, op :: rest =>
    match storeGet st.entries st.sequence (mmrElementKey op) with
    | some slice =>
      match mmrProofLookup st (i + 1) rest with
      | .ok ps => .ok (leVal (slice.take 8) :: ps)
      | .error e => .error e
    | none => .error (.elementNotFound i)

/-- `MMRAccumulator::proof` (`src/mmr/accumulator.rs` 164-195): reject a
commitment whose root differs from the current root, then resolve every
element to its stored position. -/
def mmrProof (st : MMRState) (c : AccumulatorCommitment) (elements : List OutPoint) :
    Except AccErr MMRProofM :=
  if c.root ≠ mmrRoot st then .error .invalidCommitment
  else
    match mmrProofLookup st 0 elements with
    | .ok posList => .ok ⟨posList⟩
    | .error e => .error e

/-- `Proof::verify` for the MMR engine (`src/mmr/accumulator.rs` 224-244):
check the element/position counts, reconstruct each leaf hash from
`(out_point, cell_status)`, and hand the pairs to the crate's proof
verification (modelled by the parameter `innerVerify`). -/
def mmrVerify (innerVerify : Bytes → List (Nat × Bytes) → Except AccErr Bool)
    (p : MMRProofM) (c : AccumulatorCommitment)
    (elements : List (OutPoint × CellStatus)) : Except AccErr Bool :=
  if elements.length ≠ p.posList.length then .error .invalidProof
  else innerVerify c.root
    ((p.posList.zip elements).map (fun x => (x.1, mmrLeafHash x.2.1 x.2.2)))

/-- The leaves part of the add loop: each processed element appends the leaf
`blake2b(tx_hash ‖ index_LE ‖ status)` for the live status at the captured
sequence. -/
theorem mmrAddFold_leaves (sequence : Nat) (st : MMRState) (elements : List OutPoint) :
    (elements.foldl (mmrAddStep sequence) st).leaves.map Prod.snd =
      st.leaves.map Prod.snd ++ elements.map (fun op =>
        blake2b (op.txHash ++ le4 op.index ++ (CellStatus.newLive sequence).blockNumbers)) := by
  induction elements generalizing st with
  | nil => simp
  | cons op rest ih =>
    simp only [List.foldl_cons, ih, List.map_cons]
    simp [mmrAddStep, mmrLeafHash]

/-- The leaf formula asserted by C2, built from the spec's words for
comparison: `H(identity_hash ‖ status_bytes)` with
`identity_hash = H(origin ‖ index_LE)`. -/
def specLeafHashC2 (op : OutPoint) (cs : CellStatus) : Bytes :=
  blake2b (OutPoint.hash op ++ cs.blockNumbers)

/-- A concrete element for the C2 counterexample. -/
def c2Op : OutPoint := ⟨List.replicate 32 1, 0⟩

/-- C2, counterexample: the leaf the MMR engine's `add` pushes for `c2Op`
with status "live, created at 0" is blake2b over the 52-byte string
`tx_hash ‖ index_LE ‖ status` — not blake2b over
`blake2b(tx_hash ‖ index_LE) ‖ status` as the claim decomposes it. -/
theorem spec_c2_counterexample :
    (mmrAdd ⟨[], 0, [], 0⟩ [c2Op]).leaves.map Prod.snd =
      [mmrLeafHash c2Op (CellStatus.newLive 0)] ∧
    mmrLeafHash c2Op (CellStatus.newLive 0) ≠
      specLeafHashC2 c2Op (CellStatus.newLive 0) := by decide

/-- C2, amended: the 32-byte leaf hash that `add` pushes for each element —
and that `verify` reconstructs — is `H(tx_hash ‖ index_LE ‖ status_bytes)`:
blake2b-256 applied once to the identity *preimage* concatenated with the
status bytes, not to the identity hash.  The identity hash itself is
`H(origin ‖ index_LE)`, as the claim says, but the leaf does not factor
through it. -/
theorem spec_c2_leaf_hash_amended :
    (∀ st elements, (mmrAdd st elements).leaves.map Prod.snd =
      st.leaves.map Prod.snd ++ elements.map (fun op =>
        blake2b (op.txHash ++ le4 op.index ++
          (CellStatus.newLive st.sequence).blockNumbers))) ∧
    (∀ innerVerify p c elements, elements.length = p.posList.length →
      mmrVerify innerVerify p c elements = innerVerify c.root
        ((p.posList.zip elements).map (fun x =>
          (x.1, blake2b (x.2.1.txHash ++ le4 x.2.1.index ++ x.2.2.blockNumbers))))) ∧
    (∀ op : OutPoint, op.hash = blake2b (op.txHash ++ le4 op.index)) := by
  refine ⟨fun st elements => mmrAddFold_leaves st.sequence st elements, ?_, fun _ => rfl⟩
  intro innerVerify p c elements h
  simp [mmrVerify, h, mmrLeafHash]

/-- C2, witness: the verify clause of the amended statement, instantiated
with a matching element/position count. -/
theorem spec_c2_witness :
    mmrVerify (fun _ _ => .ok true) ⟨[0]⟩ ⟨h256Zero, 0⟩
      [(c2Op, CellStatus.newLive 0)] = .ok true := by
  rw [spec_c2_leaf_hash_amended.2.1 (fun _ _ => .ok true) ⟨[0]⟩ ⟨h256Zero, 0⟩
    [(c2Op, CellStatus.newLive 0)] (by decide)]

/-! ## The canonical SMT engine (`src/smt/accumulator.rs`)

The external `sparse_merkle_tree` crate is modelled by its dictionary
interface: the tree is the association of 32-byte identity-hash keys to
`CellStatus` values, `get` of an absent key returns `Value::zero()`, and
`update_all` batch-replaces bindings.  `smt.root()` is an opaque but
executable digest of the dictionary. -/

/-- The canonical SMT engine state. -/
structure SMTState where
  tree : List (Bytes × CellStatus)
  sequence : Nat
deriving DecidableEq, Repr

/-- `SparseMerkleTree::get`: the stored leaf value, `zero()` when absent. -/
def smtGet (tree : List (Bytes × CellStatus)) (key : Bytes) : CellStatus :=
  (assocGet tree key).getD zeroCellStatus

/-- `SparseMerkleTree::update_all`: batch-replace the given bindings. -/
def smtUpdateAll (tree : List (Bytes × CellStatus)) (kvs : List (Bytes × CellStatus)) :
    List (Bytes × CellStatus) :=
  kvs.foldl (fun t kv => assocSet t kv.1 kv.2) tree

/-- Model of `smt.root()`: a digest of the dictionary (only its equality
behaviour matters to the embedded code). -/
def smtRoot (st : SMTState) : Bytes :=
  blake2b (st.tree.foldr (fun e acc => e.1 ++ e.2.blockNumbers ++ acc) [])

/-- `SMTAccumulator::add` (`src/smt/accumulator.rs` 34-47): batch-update
every identity to "live, created at the current sequence". -/
def smtAdd (st : SMTState) (elements : List OutPoint) : SMTState :=
  { st with tree := smtUpdateAll st.tree (elements.map (fun op =>
      (op.hash, CellStatus.newLive st.sequence))) }

/-- The validation loop of `SMTAccumulator::delete` (lines 52-61): read each
element's current leaf, fail with the index of the first one equal to the
absent sentinel, otherwise collect the consumed status. -/
def smtDeleteLookup (st : SMTState) (sequence : Nat) :
    Nat → List OutPoint → Except AccErr (List (Bytes × CellStatus))
  | _, [] => .ok []
  | i, op :: rest =>
    let key := op.hash
    let status := smtGet st.tree key
    if status = zeroCellStatus then .error (.elementNotFound i)
    else
      match smtDeleteLookup st sequence (i + 1) rest with
      | .ok kvs => .ok ((key, status.markAsDead sequence) :: kvs)
      | .error e => .error e

/-- `SMTAccumulator::delete` (`src/smt/accumulator.rs` 49-65): validate all
elements, then batch-update; the tree is untouched on failure. -/
def smtDelete (st : SMTState) (elements : List OutPoint) : SMTState × Option AccErr :=
  match smtDeleteLookup st st.sequence 0 elements with
  | .ok kvs => ({ st with tree := smtUpdateAll st.tree kvs }, none)
  | .error e => (st, some e)

/-- The modelled `sparse_merkle_tree::MerkleProof`: the crate proof is
opaque; the model records the queried keys. -/
structure SMTProofM where
  keys : List Bytes
deriving DecidableEq, Repr

/-- Model of `SparseMerkleTree::merkle_proof`, which rejects an empty key
list and otherwise produces a proof for the keys. -/
def smtMerkleProofModel (keys : List Bytes) : Except AccErr SMTProofM :=
  if keys.isEmpty then .error .internalError else .ok ⟨keys⟩

/-- The validation loop of `SMTAccumulator::proof` (lines 104-112): fail
with the index of the first element whose stored leaf is the absent
sentinel. -/
def smtProofLookup (st : SMTState) : Nat → List OutPoint → Except AccErr (List Bytes)
  | _, [] => .ok []
  | i, op :: rest =>
    let key := op.hash
    if smtGet st.tree key = zeroCellStatus then .error (.elementNotFound i)
    else
      match smtProofLookup st (i + 1) rest with
      | .ok ks => .ok (key :: ks)
      | .error e => .error e

/-- `SMTAccumulator::proof` (`src/smt/accumulator.rs` 94-116): reject a
commitment whose root differs from the current root, then resolve every
element's key, then produce the batch proof. -/
def smtProof (st : SMTState) (c : AccumulatorCommitment) (elements : List OutPoint) :
    Except AccErr SMTProofM :=
  if c.root ≠ smtRoot st then .error .invalidCommitment
  else
    match smtProofLookup st 0 elements with
    | .ok keys => smtMerkleProofModel keys
    | .error e => .error e

/-! ## The live-SMT engine (`src/smt_live/accumulator.rs`)

Leaf values are 8-byte `BlockNumber`s; `Value::zero()` is the all-`0xFF`
`MAX_BLOCK_NUMBER` (`src/smt_live/mod.rs` 10-27).  `src/smt_live/store.rs`
is absent from the sources; per the spec (§4.1, §6) its `put_raw`/`get_raw`
are the versioned adapter's put and get, and its `ELEMENT_KEY` is a reserved
one-byte namespace prefix — modelled below as the byte 2 (the exact value is
immaterial to the claims). -/

/-- `MAX_BLOCK_NUMBER` (`src/smt_live/mod.rs` 10): eight `0xFF` bytes, the
live-SMT absent-leaf sentinel. -/
def maxBlockNumber : Bytes := List.replicate 8 255

/-- `Value::to_h256` for `BlockNumber` (`src/smt_live/mod.rs` 12-22). -/
def blockNumberToH256 (b : Bytes) : Bytes :=
  if b = maxBlockNumber then h256Zero else blake2b b

/-- Modelled from the spec: `src/smt_live/store.rs` is absent; its
`ELEMENT_KEY` namespace prefix byte. -/
def liveElementKeyByte : Bytes := [2]

/-- The live-SMT element record key `ELEMENT_KEY ‖ tx_hash ‖ index_LE`
(`src/smt_live/accumulator.rs` 42-47 / 62-67): note the raw `tx_hash`, not
the identity hash. -/
def liveElementKey (op : OutPoint) : Bytes :=
  liveElementKeyByte ++ op.txHash ++ le4 op.index

/-- The live-SMT engine state: the SMT dictionary (`BlockNumber` leaves),
the versioned raw store, and the adapter sequence. -/
structure LiveState where
  tree : List (Bytes × Bytes)
  entries : Entries
  sequence : Nat
deriving DecidableEq, Repr

/-- `update_all` for the live-SMT dictionary. -/
def liveUpdateAll (tree : List (Bytes × Bytes)) (kvs : List (Bytes × Bytes)) :
    List (Bytes × Bytes) :=
  kvs.foldl (fun t kv => assocSet t kv.1 kv.2) tree

/-- Model of the live-SMT `smt.root()`. -/
def liveRoot (st : LiveState) : Bytes :=
  blake2b (st.tree.foldr (fun e acc => e.1 ++ e.2 ++ acc) [])

/-- `SMTAccumulator::add` for the live engine (`src/smt_live/accumulator.rs`
36-54): write each element's creation record with `put_raw`, collect the
`(identity_hash, sequence_LE)` leaves, then `update_all`. -/
def liveAdd (st : LiveState) (elements : List OutPoint) : LiveState :=
  let sequence := st.sequence
  let step := fun (acc : Entries × List (Bytes × Bytes)) (op : OutPoint) =>
    (storePut acc.1 sequence (liveElementKey op) (le8 sequence),
     acc.2 ++ [(op.hash, le8 sequence)])
  let r := elements.foldl step (st.entries, [])
  { tree := liveUpdateAll st.tree r.2, entries := r.1, sequence := st.sequence }

/-- The loop of the live engine's `delete` (lines 61-75): for each element
in turn, read its raw record; if present, immediately `put_raw` the record
extended with the consumption sequence and collect a `zero()` leaf; if
absent, stop with that element's index — the store writes already issued for
earlier elements remain. -/
def liveDeleteLoop (sequence : Nat) :
    Entries → Nat → List OutPoint → Entries × List (Bytes × Bytes) × Option AccErr
  | entries, _, [] => (entries, [], none)
  | entries, i, op :: rest =>
    let key := liveElementKey op
    match storeGet entries sequence key with
    | some storedSequences =>
      let entries2 := storePut entries sequence key (storedSequences ++ le8 sequence)
      let r := liveDeleteLoop sequence entries2 (i + 1) rest
      (r.1, (op.hash, maxBlockNumber) :: r.2.1, r.2.2)
    | none => (entries, [], some (.elementNotFound i))

/-- `SMTAccumulator::delete` for the live engine
(`src/smt_live/accumulator.rs` 56-79): run the loop; only on full success is
the tree batch-updated. -/
def liveDelete (st : LiveState) (elements : List OutPoint) : LiveState × Option AccErr :=
  let r := liveDeleteLoop st.sequence st.entries 0 elements
  match r.2.2 with
  | none => ({ tree := liveUpdateAll st.tree r.2.1, entries := r.1,
               sequence := st.sequence }, none)
  | some e => ({ st with entries := r.1 }, some e)

/-- The proof loop of the live engine (lines 118-123): one singleton
`merkle_proof` per element — no existence check, and the consumption slot is
always `None`. -/
def liveProofLoop (st : LiveState) :
    List OutPoint → Except AccErr (List (SMTProofM × Option SMTProofM))
  | [] => .ok []
  | op :: rest =>
    match smtMerkleProofModel [op.hash] with
    | .ok p =>
      match liveProofLoop st rest with
      | .ok ps => .ok ((p, none) :: ps)
      | .error e => .error e
    | .error e => .error e

/-- `SMTAccumulator::proof` for the live engine
(`src/smt_live/accumulator.rs` 108-127). -/
def liveProof (st : LiveState) (c : AccumulatorCommitment) (elements : List OutPoint) :
    Except AccErr (List (SMTProofM × Option SMTProofM)) :=
  if c.root ≠ liveRoot st then .error .invalidCommitment
  else liveProofLoop st elements

/-! ## C3: batch delete all-or-nothing -/

/-- MMR delete resolution on a list whose first unresolvable element follows
`pre`: the loop fails with that element's position, having read but never
written. -/
theorem mmrDeleteLookup_err (st : MMRState) (sequence : Nat) (pre : List OutPoint) :
    ∀ (i : Nat) (post : List OutPoint) (op : OutPoint),
    (∀ p ∈ pre, (storeGet st.entries st.sequence (mmrElementKey p)).isSome = true) →
    storeGet st.entries st.sequence (mmrElementKey op) = none →
    mmrDeleteLookup st sequence i (pre ++ op :: post) =
      .error (.elementNotFound (i + pre.length)) := by
  induction pre with
  | nil =>
    intro i post op _ h2
    simp [mmrDeleteLookup, h2]
  | cons p rest ih =>
    intro i post op h1 h2
    have hp : (storeGet st.entries st.sequence (mmrElementKey p)).isSome = true :=
      h1 p (List.mem_cons_self _ _)
    obtain ⟨slice, hs⟩ := Option.isSome_iff_exists.mp hp
    have h3 := ih (i + 1) post op (fun q hq => h1 q (List.mem_cons_of_mem _ hq)) h2
    have hidx : i + 1 + rest.length = i + (p :: rest).length := by
      simp only [List.length_cons]; omega
    rw [hidx] at h3
    simp [mmrDeleteLookup, hs, h3]

/-- SMT delete validation on a list whose first absent element follows
`pre`. -/
theorem smtDeleteLookup_err (st : SMTState) (sequence : Nat) (pre : List OutPoint) :
    ∀ (i : Nat) (post : List OutPoint) (op : OutPoint),
    (∀ p ∈ pre, smtGet st.tree p.hash ≠ zeroCellStatus) →
    smtGet st.tree op.hash = zeroCellStatus →
    smtDeleteLookup st sequence i (pre ++ op :: post) =
      .error (.elementNotFound (i + pre.length)) := by
  induction pre with
  | nil =>
    intro i post op _ h2
    simp [smtDeleteLookup, h2]
  | cons p rest ih =>
    intro i post op h1 h2
    have hp := h1 p (List.mem_cons_self _ _)
    have h3 := ih (i + 1) post op (fun q hq => h1 q (List.mem_cons_of_mem _ hq)) h2
    have hidx : i + 1 + rest.length = i + (p :: rest).length := by
      simp only [List.length_cons]; omega
    rw [hidx] at h3
    simp [smtDeleteLookup, hp, h3]

/-- Whether the live-SMT delete loop finds (and consumes) every element of
the list, threading its own store writes. -/
def liveLoopFinds (sequence : Nat) : Entries → List OutPoint → Bool
  | _, [] => true
  | entries, p :: rest =>
    match storeGet entries sequence (liveElementKey p) with
    | some v => liveLoopFinds sequence
        (storePut entries sequence (liveElementKey p) (v ++ le8 sequence)) rest
    | none => false

/-- The store contents after the live-SMT delete loop has consumed the given
elements. -/
def liveLoopEntries (sequence : Nat) : Entries → List OutPoint → Entries
  | entries, [] => entries
  | entries, p :: rest =>
    match storeGet entries sequence (liveElementKey p) with
    | some v => liveLoopEntries sequence
        (storePut entries sequence (liveElementKey p) (v ++ le8 sequence)) rest
    | none => entries

/-- The live-SMT delete loop on a list whose first unresolvable element
follows `pre`: it fails with that element's position, but the store writes
for the `pre` elements have already been issued. -/
theorem liveDeleteLoop_err (sequence : Nat) (pre : List OutPoint) :
    ∀ (entries : Entries) (i : Nat) (post : List OutPoint) (op : OutPoint),
    liveLoopFinds sequence entries pre = true →
    storeGet (liveLoopEntries sequence entries pre) sequence (liveElementKey op) = none →
    liveDeleteLoop sequence entries i (pre ++ op :: post) =
      (liveLoopEntries sequence entries pre,
        pre.map (fun p => (p.hash, maxBlockNumber)),
        some (.elementNotFound (i + pre.length))) := by
  induction pre with
  | nil =>
    intro entries i post op _ h2
    simp only [liveLoopEntries] at h2
    simp [liveDeleteLoop, liveLoopEntries, h2]
  | cons p rest ih =>
    intro entries i post op h1 h2
    cases hv : storeGet entries sequence (liveElementKey p) with
    | none => simp [liveLoopFinds, hv] at h1
    | some v =>
      simp only [liveLoopFinds, hv] at h1
      simp only [liveLoopEntries, hv] at h2
      have h3 := ih (storePut entries sequence (liveElementKey p) (v ++ le8 sequence))
        (i + 1) post op h1 h2
      have hidx : i + 1 + rest.length = i + (p :: rest).length := by
        simp only [List.length_cons]; omega
      rw [hidx] at h3
      simp [liveDeleteLoop, hv, h3, liveLoopEntries]

/-- C3, amended: batch delete is all-or-nothing for the MMR and canonical
SMT engines — every element is resolved before any mutation, so a failing
delete returns `ElementNotFound` with the first missing element's position
and an unchanged state.  The live-SMT engine validates each element only
just before writing its per-element consumption record: a failing delete
still returns `ElementNotFound` with the first missing position and leaves
the tree (and sequence) untouched, but the store writes for the elements
before the failing one have already been issued. -/
theorem spec_c3_delete_all_or_nothing_amended :
    (∀ (st : MMRState) (pre post : List OutPoint) (op : OutPoint),
      (∀ p ∈ pre, (storeGet st.entries st.sequence (mmrElementKey p)).isSome = true) →
      storeGet st.entries st.sequence (mmrElementKey op) = none →
      mmrDelete st (pre ++ op :: post) = (st, some (.elementNotFound pre.length))) ∧
    (∀ (st : SMTState) (pre post : List OutPoint) (op : OutPoint),
      (∀ p ∈ pre, smtGet st.tree p.hash ≠ zeroCellStatus) →
      smtGet st.tree op.hash = zeroCellStatus →
      smtDelete st (pre ++ op :: post) = (st, some (.elementNotFound pre.length))) ∧
    (∀ (st : LiveState) (pre post : List OutPoint) (op : OutPoint),
      liveLoopFinds st.sequence st.entries pre = true →
      storeGet (liveLoopEntries st.sequence st.entries pre) st.sequence
        (liveElementKey op) = none →
      liveDelete st (pre ++ op :: post) =
        (⟨st.tree, liveLoopEntries st.sequence st.entries pre, st.sequence⟩,
          some (.elementNotFound pre.length))) := by
  refine ⟨?_, ?_, ?_⟩
  · intro st pre post op h1 h2
    unfold mmrDelete
    rw [mmrDeleteLookup_err st st.sequence pre 0 post op h1 h2]
    simp
  · intro st pre post op h1 h2
    unfold smtDelete
    rw [smtDeleteLookup_err st st.sequence pre 0 post op h1 h2]
    simp
  · intro st pre post op h1 h2
    unfold liveDelete
    rw [liveDeleteLoop_err st.sequence pre st.entries 0 post op h1 h2]
    simp

/-- Elements for the C3 counterexample: `c3Op1` exists (its creation record
was written at sequence 0), `c3Op2` does not. -/
def c3Op1 : OutPoint := ⟨List.replicate 32 3, 0⟩

/-- The missing element of the C3 counterexample. -/
def c3Op2 : OutPoint := ⟨List.replicate 32 4, 0⟩

/-- A live-SMT engine at sequence 1 whose store holds only `c3Op1`'s
creation record. -/
def c3LiveState : LiveState :=
  ⟨[], [(liveElementKey c3Op1 ++ be8 0, le8 0)], 1⟩

/-- C3, counterexample: deleting `[c3Op1, c3Op2]` on the live-SMT engine
fails with `ElementNotFound(1)`, yet the store has been mutated — `c3Op1`'s
record now carries the consumption sequence, although the batch failed. -/
theorem spec_c3_counterexample :
    (liveDelete c3LiveState [c3Op1, c3Op2]).2 = some (.elementNotFound 1) ∧
    (liveDelete c3LiveState [c3Op1, c3Op2]).1.entries ≠ c3LiveState.entries := by
  decide

/-- C3, witness: the amended statement on concrete states — an MMR and a
canonical SMT engine with empty stores reject a singleton delete untouched,
and the live engine of the counterexample fails at position 1 with its tree
intact. -/
theorem spec_c3_witness :
    mmrDelete ⟨[], 0, [], 0⟩ ([] ++ c3Op2 :: []) = (⟨[], 0, [], 0⟩, some (.elementNotFound 0)) ∧
    smtDelete ⟨[], 0⟩ ([] ++ c3Op2 :: []) = (⟨[], 0⟩, some (.elementNotFound 0)) ∧
    liveDelete c3LiveState ([c3Op1] ++ c3Op2 :: []) =
      (⟨c3LiveState.tree, liveLoopEntries 1 c3LiveState.entries [c3Op1], 1⟩,
        some (.elementNotFound 1)) :=
  ⟨spec_c3_delete_all_or_nothing_amended.1 ⟨[], 0, [], 0⟩ [] [] c3Op2
      (by decide) (by decide),
   spec_c3_delete_all_or_nothing_amended.2.1 ⟨[], 0⟩ [] [] c3Op2
      (by decide) (by decide),
   spec_c3_delete_all_or_nothing_amended.2.2 c3LiveState [c3Op1] [] c3Op2
      (by decide) (by decide)⟩

/-! ## C4: deleting an already-deleted element -/

/-- The element of the C4 counterexample. -/
def c4Op : OutPoint := ⟨List.replicate 32 5, 0⟩

/-- A canonical SMT engine at sequence 2 whose leaf for `c4Op` records
"created at 1, consumed at 1" — already deleted, not the absent sentinel. -/
def c4SMTState : SMTState := ⟨[(OutPoint.hash c4Op, CellStatus.newDead 1 1)], 2⟩

/-- An MMR engine at sequence 2 whose index record for `c4Op` carries the
same dead status. -/
def c4MMRState : MMRState :=
  ⟨[(mmrElementKey c4Op ++ be8 0, le8 0 ++ (CellStatus.newDead 1 1).blockNumbers)],
    2, [(0, h256Zero)], 1⟩

/-- C4, counterexample: `c4Op`'s stored status is non-live and differs from
the absent sentinel, yet a second `delete` returns no error in either the
canonical SMT engine or the MMR engine — it silently succeeds. -/
theorem spec_c4_counterexample :
    (CellStatus.newDead 1 1).isLive = false ∧
    CellStatus.newDead 1 1 ≠ zeroCellStatus ∧
    (smtDelete c4SMTState [c4Op]).2 = none ∧
    (mmrDelete c4MMRState [c4Op]).2 = none := by decide

/-- C4, amended: a second delete of an already-deleted element silently
succeeds in both engines, re-marking the element consumed at the current
sequence.  The canonical SMT engine accepts any stored status other than the
all-zero absent sentinel (non-live ones included); the MMR engine accepts
any element whose index record exists — which holds for every added
element, deleted or not. -/
theorem spec_c4_second_delete_amended :
    (∀ (st : SMTState) (op : OutPoint),
      smtGet st.tree op.hash ≠ zeroCellStatus →
      (smtDelete st [op]).2 = none ∧
      (smtDelete st [op]).1.tree =
        assocSet st.tree op.hash ((smtGet st.tree op.hash).markAsDead st.sequence)) ∧
    (∀ (st : MMRState) (op : OutPoint) (slice : Bytes),
      storeGet st.entries st.sequence (mmrElementKey op) = some slice →
      (mmrDelete st [op]).2 = none ∧
      (mmrDelete st [op]).1.leaves = assocSet st.leaves (leVal (slice.take 8))
        (mmrLeafHash op (CellStatus.markAsDead ⟨slice.drop 8⟩ st.sequence)) ∧
      (mmrDelete st [op]).1.entries = storePut st.entries st.sequence (mmrElementKey op)
        (le8 (leVal (slice.take 8)) ++
          (CellStatus.markAsDead ⟨slice.drop 8⟩ st.sequence).blockNumbers)) := by
  constructor
  · intro st op h
    simp [smtDelete, smtDeleteLookup, h, smtUpdateAll]
  · intro st op slice h
    simp [mmrDelete, mmrDeleteLookup, h, mmrApplyDeletes]

/-- C4, witness: the amended statement on the counterexample states. -/
theorem spec_c4_witness :
    ((smtDelete c4SMTState [c4Op]).2 = none ∧
      (smtDelete c4SMTState [c4Op]).1.tree =
        assocSet c4SMTState.tree c4Op.hash
          ((smtGet c4SMTState.tree c4Op.hash).markAsDead c4SMTState.sequence)) ∧
    ((mmrDelete c4MMRState [c4Op]).2 = none ∧
      (mmrDelete c4MMRState [c4Op]).1.leaves =
        assocSet c4MMRState.leaves (leVal ((le8 0 ++ (CellStatus.newDead 1 1).blockNumbers).take 8))
          (mmrLeafHash c4Op (CellStatus.markAsDead
            ⟨(le8 0 ++ (CellStatus.newDead 1 1).blockNumbers).drop 8⟩ c4MMRState.sequence)) ∧
      (mmrDelete c4MMRState [c4Op]).1.entries =
        storePut c4MMRState.entries c4MMRState.sequence (mmrElementKey c4Op)
          (le8 (leVal ((le8 0 ++ (CellStatus.newDead 1 1).blockNumbers).take 8)) ++
            (CellStatus.markAsDead
              ⟨(le8 0 ++ (CellStatus.newDead 1 1).blockNumbers).drop 8⟩
              c4MMRState.sequence).blockNumbers)) :=
  ⟨spec_c4_second_delete_amended.1 c4SMTState c4Op (by decide),
   spec_c4_second_delete_amended.2 c4MMRState c4Op
     (le8 0 ++ (CellStatus.newDead 1 1).blockNumbers) (by decide)⟩

/-! ## C8: proof for an unknown element -/

/-- MMR proof resolution on a list whose first unresolvable element follows
`pre`. -/
theorem mmrProofLookup_err (st : MMRState) (pre : List OutPoint) :
    ∀ (i : Nat) (post : List OutPoint) (op : OutPoint),
    (∀ p ∈ pre, (storeGet st.entries st.sequence (mmrElementKey p)).isSome = true) →
    storeGet st.entries st.sequence (mmrElementKey op) = none →
    mmrProofLookup st i (pre ++ op :: post) = .error (.elementNotFound (i + pre.length)) := by
  induction pre with
  | nil =>
    intro i post op _ h2
    simp [mmrProofLookup, h2]
  | cons p rest ih =>
    intro i post op h1 h2
    obtain ⟨slice, hs⟩ := Option.isSome_iff_exists.mp (h1 p (List.mem_cons_self _ _))
    have h3 := ih (i + 1) post op (fun q hq => h1 q (List.mem_cons_of_mem _ hq)) h2
    have hidx : i + 1 + rest.length = i + (p :: rest).length := by
      simp only [List.length_cons]; omega
    rw [hidx] at h3
    simp [mmrProofLookup, hs, h3]

/-- SMT proof resolution on a list whose first absent element follows
`pre`. -/
theorem smtProofLookup_err (st : SMTState) (pre : List OutPoint) :
    ∀ (i : Nat) (post : List OutPoint) (op : OutPoint),
    (∀ p ∈ pre, smtGet st.tree p.hash ≠ zeroCellStatus) →
    smtGet st.tree op.hash = zeroCellStatus →
    smtProofLookup st i (pre ++ op :: post) = .error (.elementNotFound (i + pre.length)) := by
  induction pre with
  | nil =>
    intro i post op _ h2
    simp [smtProofLookup, h2]
  | cons p rest ih =>
    intro i post op h1 h2
    have hp := h1 p (List.mem_cons_self _ _)
    have h3 := ih (i + 1) post op (fun q hq => h1 q (List.mem_cons_of_mem _ hq)) h2
    have hidx : i + 1 + rest.length = i + (p :: rest).length := by
      simp only [List.length_cons]; omega
    rw [hidx] at h3
    simp [smtProofLookup, hp, h3]

/-- The live-SMT proof loop succeeds on every element list, producing one
singleton creation proof per element and never a consumption part. -/
theorem liveProofLoop_eq (st : LiveState) (elements : List OutPoint) :
    liveProofLoop st elements = .ok (elements.map (fun op => (⟨[op.hash]⟩, none))) := by
  induction elements with
  | nil => rfl
  | cons op rest ih => simp [liveProofLoop, smtMerkleProofModel, ih]

/-- C8, amended: with a commitment matching the current root, `proof` on a
list containing an element never added fails with `ElementNotFound` carrying
the first such element's position — for the MMR and canonical SMT engines.
The live-SMT engine's `proof` performs no existence check at all: it
succeeds on any element list, returning one creation proof per element. -/
theorem spec_c8_proof_unknown_element_amended :
    (∀ (st : MMRState) (c : AccumulatorCommitment) (pre post : List OutPoint) (op : OutPoint),
      c.root = mmrRoot st →
      (∀ p ∈ pre, (storeGet st.entries st.sequence (mmrElementKey p)).isSome = true) →
      storeGet st.entries st.sequence (mmrElementKey op) = none →
      mmrProof st c (pre ++ op :: post) = .error (.elementNotFound pre.length)) ∧
    (∀ (st : SMTState) (c : AccumulatorCommitment) (pre post : List OutPoint) (op : OutPoint),
      c.root = smtRoot st →
      (∀ p ∈ pre, smtGet st.tree p.hash ≠ zeroCellStatus) →
      smtGet st.tree op.hash = zeroCellStatus →
      smtProof st c (pre ++ op :: post) = .error (.elementNotFound pre.length)) ∧
    (∀ (st : LiveState) (c : AccumulatorCommitment) (elements : List OutPoint),
      c.root = liveRoot st →
      liveProof st c elements = .ok (elements.map (fun op => (⟨[op.hash]⟩, none)))) := by
  refine ⟨?_, ?_, ?_⟩
  · intro st c pre post op hroot h1 h2
    rw [mmrProof, if_neg (by simp [hroot])]
    rw [mmrProofLookup_err st pre 0 post op h1 h2]
    simp
  · intro st c pre post op hroot h1 h2
    rw [smtProof, if_neg (by simp [hroot])]
    rw [smtProofLookup_err st pre 0 post op h1 h2]
    simp
  · intro st c elements hroot
    rw [liveProof, if_neg (by simp [hroot])]
    exact liveProofLoop_eq st elements

/-- The never-added element of the C8 counterexample. -/
def c8Op : OutPoint := ⟨List.replicate 32 6, 0⟩

/-- An empty live-SMT engine. -/
def c8LiveState : LiveState := ⟨[], [], 0⟩

/-- C8, counterexample: the live-SMT engine, given a matching commitment and
an element that was never added, does not fail with `ElementNotFound(0)` as
the claim requires — it returns a proof. -/
theorem spec_c8_counterexample :
    liveProof c8LiveState ⟨liveRoot c8LiveState, 0⟩ [c8Op] =
      .ok [(⟨[c8Op.hash]⟩, none)] ∧
    liveProof c8LiveState ⟨liveRoot c8LiveState, 0⟩ [c8Op] ≠
      .error (.elementNotFound 0) := by decide

/-- C8, witness: the amended statement on concrete engines — empty MMR and
SMT engines reject the unknown element at position 0, and the live engine
returns a proof for it. -/
theorem spec_c8_witness :
    mmrProof ⟨[], 0, [], 0⟩ ⟨mmrRoot ⟨[], 0, [], 0⟩, 0⟩ ([] ++ c8Op :: []) =
      .error (.elementNotFound 0) ∧
    smtProof ⟨[], 0⟩ ⟨smtRoot ⟨[], 0⟩, 0⟩ ([] ++ c8Op :: []) =
      .error (.elementNotFound 0) ∧
    liveProof c8LiveState ⟨liveRoot c8LiveState, 0⟩ [c8Op] =
      .ok ([c8Op].map (fun op => (⟨[op.hash]⟩, none))) :=
  ⟨spec_c8_proof_unknown_element_amended.1 ⟨[], 0, [], 0⟩ _ [] [] c8Op rfl
      (by decide) (by decide),
   spec_c8_proof_unknown_element_amended.2.1 ⟨[], 0⟩ _ [] [] c8Op rfl
      (by decide) (by decide),
   spec_c8_proof_unknown_element_amended.2.2 c8LiveState _ [c8Op] rfl⟩

/-! ## C5: the live-SMT proof's consumption part -/

/-- The consumed element of the C5 evaluation. -/
def c5Op : OutPoint := ⟨List.replicate 32 7, 0⟩

/-- A live-SMT engine in which `c5Op` was added at sequence 0 and deleted at
sequence 1: its leaf is the `MAX_BLOCK_NUMBER` sentinel and its raw record
holds both the creation and the consumption sequence. -/
def c5LiveState : LiveState :=
  ⟨[(OutPoint.hash c5Op, maxBlockNumber)],
   [(liveElementKey c5Op ++ be8 0, le8 0),
    (liveElementKey c5Op ++ be8 1, le8 0 ++ le8 1)],
   2⟩

/-- C5, evaluation at the failing input: `c5Op` is non-live at proof time
(consumed leaf, 16-byte record), yet `proof` returns a pair whose
consumption component is `none` — the claim requires it to be present. -/
theorem spec_c5_consumption_part_always_none :
    assocGet c5LiveState.tree (OutPoint.hash c5Op) = some maxBlockNumber ∧
    storeGet c5LiveState.entries c5LiveState.sequence (liveElementKey c5Op) =
      some (le8 0 ++ le8 1) ∧
    liveProof c5LiveState ⟨liveRoot c5LiveState, 2⟩ [c5Op] =
      .ok [(⟨[OutPoint.hash c5Op]⟩, none)] := by decide

/-! ## C9: live-SMT verify returns `Ok(false)`, not an error -/

/-- `Proof::verify` for the live engine (`src/smt_live/accumulator.rs`
154-192), one loop iteration per `(element, commitment, proof)` triple; the
crate-level sub-proof verification is the parameter `sub`. -/
def liveVerifyLoop (sub : SMTProofM → Bytes → List (Bytes × Bytes) → Except AccErr Bool) :
    List (((OutPoint × CellStatus) × (AccumulatorCommitment × Option AccumulatorCommitment)) ×
      (SMTProofM × Option SMTProofM)) → Except AccErr Bool
  | [] => .ok true
  | (((op, cs), (createC, consumeC)), (p, cp)) :: rest =>
    match sub p createC.root [(op.hash, blockNumberToH256 (cs.blockNumbers.take 8))] with
    | .error e => .error e
    | .ok false => .ok false
    | .ok true =>
      if cs.isLive then liveVerifyLoop sub rest
      else
        match consumeC, cp with
        | some c2, some p2 =>
          match sub p2 c2.root [(op.hash, blockNumberToH256 maxBlockNumber)] with
          | .error e => .error e
          | .ok false => .ok false
          | .ok true => liveVerifyLoop sub rest
        | _, _ => .ok false

/-- `Proof::verify` for the live engine: mismatched commitment/proof counts
give `Ok(false)`; otherwise the per-element loop runs over the zip (which
truncates to the shorter of elements and commitments, as the Rust iterator
zip does). -/
def liveVerify (sub : SMTProofM → Bytes → List (Bytes × Bytes) → Except AccErr Bool)
    (proofs : List (SMTProofM × Option SMTProofM))
    (commitment : List (AccumulatorCommitment × Option AccumulatorCommitment))
    (elements : List (OutPoint × CellStatus)) : Except AccErr Bool :=
  if commitment.length ≠ proofs.length then .ok false
  else liveVerifyLoop sub ((elements.zip commitment).zip proofs)

/-- A verify-loop entry passes: its creation proof verifies, and if the
status is non-live, its consumption commitment and proof are present and
verify. -/
def liveStepPasses (sub : SMTProofM → Bytes → List (Bytes × Bytes) → Except AccErr Bool)
    (x : ((OutPoint × CellStatus) × (AccumulatorCommitment × Option AccumulatorCommitment)) ×
      (SMTProofM × Option SMTProofM)) : Prop :=
  sub x.2.1 x.1.2.1.root
    [(x.1.1.1.hash, blockNumberToH256 (x.1.1.2.blockNumbers.take 8))] = .ok true ∧
  (x.1.1.2.isLive = true ∨ ∃ c2 p2, x.1.2.2 = some c2 ∧ x.2.2 = some p2 ∧
    sub p2 c2.root [(x.1.1.1.hash, blockNumberToH256 maxBlockNumber)] = .ok true)

/-- A verify-loop entry is rejected in one of the ways C9 describes: its
creation proof verifies `false`; or it verifies `true` but the status is
non-live and the consumption commitment or proof is missing; or both parts
are present and the consumption proof verifies `false`. -/
def liveStepRejects (sub : SMTProofM → Bytes → List (Bytes × Bytes) → Except AccErr Bool)
    (x : ((OutPoint × CellStatus) × (AccumulatorCommitment × Option AccumulatorCommitment)) ×
      (SMTProofM × Option SMTProofM)) : Prop :=
  sub x.2.1 x.1.2.1.root
    [(x.1.1.1.hash, blockNumberToH256 (x.1.1.2.blockNumbers.take 8))] = .ok false ∨
  (sub x.2.1 x.1.2.1.root
    [(x.1.1.1.hash, blockNumberToH256 (x.1.1.2.blockNumbers.take 8))] = .ok true ∧
   x.1.1.2.isLive = false ∧
   ((x.1.2.2 = none ∨ x.2.2 = none) ∨
    ∃ c2 p2, x.1.2.2 = some c2 ∧ x.2.2 = some p2 ∧
      sub p2 c2.root [(x.1.1.1.hash, blockNumberToH256 maxBlockNumber)] = .ok false))

/-- The verify loop returns `Ok(false)` — never an error — when every entry
before `x` passes and `x` is rejected. -/
theorem liveVerifyLoop_false
    (sub : SMTProofM → Bytes → List (Bytes × Bytes) → Except AccErr Bool)
    (pre : List (((OutPoint × CellStatus) ×
      (AccumulatorCommitment × Option AccumulatorCommitment)) ×
      (SMTProofM × Option SMTProofM))) :
    ∀ post x, (∀ y ∈ pre, liveStepPasses sub y) → liveStepRejects sub x →
    liveVerifyLoop sub (pre ++ x :: post) = .ok false := by
  induction pre with
  | nil =>
    intro post x _ hrej
    obtain ⟨⟨⟨op, cs⟩, ⟨cc, oc⟩⟩, ⟨p, cp⟩⟩ := x
    rcases hrej with h1 | ⟨h1, h2, h3⟩
    · simp only [] at h1
      simp only [List.nil_append, liveVerifyLoop]
      rw [h1]
    · simp only [] at h1 h2
      simp only [List.nil_append, liveVerifyLoop]
      rw [h1]
      simp only []
      rw [if_neg (by simp [h2])]
      rcases h3 with hmiss | ⟨c2, p2, hc2, hp2, hsub⟩
      · rcases hmiss with hc | hp
        · simp only [] at hc
          subst hc
          cases cp <;> rfl
        · simp only [] at hp
          subst hp
          cases oc <;> rfl
      · simp only [] at hc2 hp2 hsub
        subst hc2; subst hp2
        simp only []
        rw [hsub]
  | cons y rest ih =>
    intro post x hpass hrej
    have hy := hpass y (List.mem_cons_self _ _)
    obtain ⟨⟨⟨op, cs⟩, ⟨cc, oc⟩⟩, ⟨p, cp⟩⟩ := y
    obtain ⟨h1, h2⟩ := hy
    simp only [] at h1
    simp only [List.cons_append, liveVerifyLoop]
    rw [h1]
    simp only []
    rcases h2 with hlive | ⟨c2, p2, hc2, hp2, hsub⟩
    · simp only [] at hlive
      rw [if_pos (by simp [hlive])]
      exact ih post x (fun z hz => hpass z (List.mem_cons_of_mem _ hz)) hrej
    · simp only [] at hc2 hp2 hsub
      subst hc2; subst hp2
      by_cases hl : cs.isLive = true
      · rw [if_pos hl]
        exact ih post x (fun z hz => hpass z (List.mem_cons_of_mem _ hz)) hrej
      · rw [if_neg hl]
        simp only []
        rw [hsub]
        exact ih post x (fun z hz => hpass z (List.mem_cons_of_mem _ hz)) hrej

/-- C9: live-SMT `Proof::verify` returns `Ok(false)` — never an error —
whenever, the entries before it all checking out, some entry's status is
non-live with its consumption commitment or sub-proof missing, or either of
its sub-proofs verifies `false` against its commitment's root. -/
theorem spec_c9_verify_false_not_error
    (sub : SMTProofM → Bytes → List (Bytes × Bytes) → Except AccErr Bool)
    (proofs : List (SMTProofM × Option SMTProofM))
    (commitment : List (AccumulatorCommitment × Option AccumulatorCommitment))
    (elements : List (OutPoint × CellStatus))
    (hlen : commitment.length = proofs.length)
    (pre post : List (((OutPoint × CellStatus) ×
      (AccumulatorCommitment × Option AccumulatorCommitment)) ×
      (SMTProofM × Option SMTProofM)))
    (x : ((OutPoint × CellStatus) ×
      (AccumulatorCommitment × Option AccumulatorCommitment)) ×
      (SMTProofM × Option SMTProofM))
    (hzip : (elements.zip commitment).zip proofs = pre ++ x :: post)
    (hpass : ∀ y ∈ pre, liveStepPasses sub y)
    (hrej : liveStepRejects sub x) :
    liveVerify sub proofs commitment elements = .ok false := by
  rw [liveVerify, if_neg (by simp [hlen]), hzip]
  exact liveVerifyLoop_false sub pre post x hpass hrej

/-- The element of the C9 witness. -/
def c9Op : OutPoint := ⟨List.replicate 32 8, 0⟩

/-- C9, witness: a sub-verifier that rejects its input makes `verify` return
`Ok(false)` on a one-element instance. -/
theorem spec_c9_witness :
    liveVerify (fun _ _ _ => .ok false) [(⟨[h256Zero]⟩, none)] [(⟨h256Zero, 0⟩, none)]
      [(c9Op, CellStatus.newLive 0)] = .ok false :=
  spec_c9_verify_false_not_error (fun _ _ _ => .ok false)
    [(⟨[h256Zero]⟩, none)] [(⟨h256Zero, 0⟩, none)] [(c9Op, CellStatus.newLive 0)]
    rfl [] [] (((c9Op, CellStatus.newLive 0), (⟨h256Zero, 0⟩, none)), (⟨[h256Zero]⟩, none))
    rfl (fun y hy => absurd hy (List.not_mem_nil y)) (Or.inl rfl)

/-! ## C10: the sequence-0 zero-status collision -/

/-- C10: an element created at sequence 0 and consumed at sequence 0
collides with the absent sentinel: `new_live(0)` followed by
`mark_as_dead(0)` is exactly `ZERO_CELL_STATUS`, its leaf digest is the zero
hash, and a canonical-SMT `delete` of any element whose stored status equals
it fails with `ElementNotFound(0)`. -/
theorem spec_c10_zero_status_collision :
    CellStatus.markAsDead (CellStatus.newLive 0) 0 = zeroCellStatus ∧
    (CellStatus.markAsDead (CellStatus.newLive 0) 0).toH256 = h256Zero ∧
    (∀ (st : SMTState) (op : OutPoint),
      smtGet st.tree op.hash = CellStatus.markAsDead (CellStatus.newLive 0) 0 →
      smtDelete st [op] = (st, some (.elementNotFound 0))) := by
  have hz : CellStatus.markAsDead (CellStatus.newLive 0) 0 = zeroCellStatus := by decide
  refine ⟨hz, by decide, ?_⟩
  intro st op h
  rw [hz] at h
  simp [smtDelete, smtDeleteLookup, h]

/-- The element of the C10 witness. -/
def c10Op : OutPoint := ⟨List.replicate 32 9, 0⟩

/-- C10, witness: a canonical SMT holding the all-zero status for `c10Op`
rejects its deletion with `ElementNotFound(0)`. -/
theorem spec_c10_witness :
    smtDelete ⟨[(OutPoint.hash c10Op, zeroCellStatus)], 5⟩ [c10Op] =
      (⟨[(OutPoint.hash c10Op, zeroCellStatus)], 5⟩, some (.elementNotFound 0)) :=
  spec_c10_zero_status_collision.2.2 ⟨[(OutPoint.hash c10Op, zeroCellStatus)], 5⟩ c10Op
    (by decide)

/-! ## C6: branch-node codec round-trips

`src/smt_append_only/serde.rs` (tags 0-3, `MergeWithZero` children carry a
`value` field) and `src/smt_live/serde.rs` (tags 0-8, with `ShortCut`
children; every record is prefixed by the store's one-byte `SMT_KEY`
namespace constant).  Decoding is partial: the `unreachable!()` arm for an
unknown tag is `none`, and each fixed-width `try_into` is modelled by a
fixed-width `extract` (on the well-formed encodings of the round-trip the
widths always match). -/

/-- `slice[i..i+n]`. -/
def extract (s : Bytes) (i n : Nat) : Bytes := (s.drop i).take n

/-- A `MergeValue` of the `append_only_smt` crate
(`src/smt_append_only/serde.rs`). -/
inductive MergeValueAO where
  | value (v : Bytes)
  | mergeWithZero (baseNode zeroBits : Bytes) (zeroCount : Nat) (value : Bytes)
deriving DecidableEq, Repr

/-- A `BranchNode` of the `append_only_smt` crate. -/
structure BranchNodeAO where
  left : MergeValueAO
  right : MergeValueAO
deriving DecidableEq, Repr

/-- `branch_node_to_vec` (`src/smt_append_only/serde.rs` 6-78): leading tag
byte 0-3, then each child's fields in order. -/
def branchNodeToVecAO (node : BranchNodeAO) : Bytes :=
  match node.left, node.right with
  | .value l, .value r => [0] ++ l ++ r
  | .value l, .mergeWithZero b z c v => [1] ++ l ++ b ++ z ++ [c] ++ v
  | .mergeWithZero b z c v, .value r => [2] ++ b ++ z ++ [c] ++ v ++ r
  | .mergeWithZero lb lz lc lv, .mergeWithZero rb rz rc rv =>
    [3] ++ lb ++ lz ++ [lc] ++ lv ++ rb ++ rz ++ [rc] ++ rv

/-- `slice_to_branch_node` (`src/smt_append_only/serde.rs` 81-151):
dispatch on `slice[0]`, fixed offsets per tag. -/
def sliceToBranchNodeAO (s : Bytes) : Option BranchNodeAO :=
  match s.getD 0 0 with
  | 0 => some ⟨.value (extract s 1 32), .value (extract s 33 32)⟩
  | 1 => some ⟨.value (extract s 1 32),
      .mergeWithZero (extract s 33 32) (extract s 65 32) (s.getD 97 0) (extract s 98 32)⟩
  | 2 => some ⟨.mergeWithZero (extract s 1 32) (extract s 33 32) (s.getD 65 0)
        (extract s 66 32),
      .value (extract s 98 32)⟩
  | 3 => some ⟨.mergeWithZero (extract s 1 32) (extract s 33 32) (s.getD 65 0)
        (extract s 66 32),
      .mergeWithZero (extract s 98 32) (extract s 130 32) (s.getD 162 0)
        (extract s 163 32)⟩
  | _ => none

/-- Well-formedness of an append-only-scheme child: hash-valued fields are
32 bytes. -/
def MergeValueAO.wf : MergeValueAO → Prop
  | .value v => v.length = 32
  | .mergeWithZero b z _ v => b.length = 32 ∧ z.length = 32 ∧ v.length = 32

/-- Modelled from the spec: `src/smt_live/store.rs` is absent; `SMT_KEY` is
its reserved one-byte tree-node namespace prefix (`branch_key_to_vec`
reserves `34 = 1 + 1 + 32` bytes for it, a height byte and a node key).
Decoding dispatches on byte 1, so the prefix value is immaterial to the
codec; it is modelled as the ASCII byte of the letter s. -/
def smtKeyByte : Nat := 115

/-- A `MergeValue` of the `sparse_merkle_tree` crate used by the live
engine (`src/smt_live/serde.rs`). -/
inductive MergeValueL where
  | value (v : Bytes)
  | mergeWithZero (baseNode zeroBits : Bytes) (zeroCount : Nat)
  | shortCut (key value : Bytes) (height : Nat)
deriving DecidableEq, Repr

/-- A `BranchNode` of the live scheme. -/
structure BranchNodeL where
  left : MergeValueL
  right : MergeValueL
deriving DecidableEq, Repr

/-- `branch_node_to_vec` (`src/smt_live/serde.rs` 15-164): `SMT_KEY`, a tag
byte 0-8, then each child's fields in order. -/
def branchNodeToVecL (node : BranchNodeL) : Bytes :=
  match node.left, node.right with
  | .value l, .value r => [smtKeyByte] ++ [0] ++ l ++ r
  | .value l, .mergeWithZero b z c => [smtKeyByte] ++ [1] ++ l ++ b ++ z ++ [c]
  | .mergeWithZero b z c, .value r => [smtKeyByte] ++ [2] ++ b ++ z ++ [c] ++ r
  | .mergeWithZero lb lz lc, .mergeWithZero rb rz rc =>
    [smtKeyByte] ++ [3] ++ lb ++ lz ++ [lc] ++ rb ++ rz ++ [rc]
  | .value l, .shortCut k v h => [smtKeyByte] ++ [4] ++ l ++ k ++ v ++ [h]
  | .shortCut k v h, .value r => [smtKeyByte] ++ [5] ++ k ++ v ++ [h] ++ r
  | .shortCut lk lv lh, .shortCut rk rv rh =>
    [smtKeyByte] ++ [6] ++ lk ++ lv ++ [lh] ++ rk ++ rv ++ [rh]
  | .mergeWithZero b z c, .shortCut k v h =>
    [smtKeyByte] ++ [7] ++ b ++ z ++ [c] ++ k ++ v ++ [h]
  | .shortCut k v h, .mergeWithZero b z c =>
    [smtKeyByte] ++ [8] ++ k ++ v ++ [h] ++ b ++ z ++ [c]

/-- `slice_to_branch_node` (`src/smt_live/serde.rs` 167-317): dispatch on
`slice[1]`, fixed offsets per tag. -/
def sliceToBranchNodeL (s : Bytes) : Option BranchNodeL :=
  match s.getD 1 0 with
  | 0 => some ⟨.value (extract s 2 32), .value (extract s 34 32)⟩
  | 1 => some ⟨.value (extract s 2 32),
      .mergeWithZero (extract s 34 32) (extract s 66 32) (s.getD 98 0)⟩
  | 2 => some ⟨.mergeWithZero (extract s 2 32) (extract s 34 32) (s.getD 66 0),
      .value (extract s 67 32)⟩
  | 3 => some ⟨.mergeWithZero (extract s 2 32) (extract s 34 32) (s.getD 66 0),
      .mergeWithZero (extract s 67 32) (extract s 99 32) (s.getD 131 0)⟩
  | 4 => some ⟨.value (extract s 2 32),
      .shortCut (extract s 34 32) (extract s 66 32) (s.getD 98 0)⟩
  | 5 => some ⟨.shortCut (extract s 2 32) (extract s 34 32) (s.getD 66 0),
      .value (extract s 67 32)⟩
  | 6 => some ⟨.shortCut (extract s 2 32) (extract s 34 32) (s.getD 66 0),
      .shortCut (extract s 67 32) (extract s 99 32) (s.getD 131 0)⟩
  | 7 => some ⟨.mergeWithZero (extract s 2 32) (extract s 34 32) (s.getD 66 0),
      .shortCut (extract s 67 32) (extract s 99 32) (s.getD 131 0)⟩
  | 8 => some ⟨.shortCut (extract s 2 32) (extract s 34 32) (s.getD 66 0),
      .mergeWithZero (extract s 67 32) (extract s 99 32) (s.getD 131 0)⟩
  | _ => none

/-- Well-formedness of a live-scheme child: hash-valued fields are
32 bytes. -/
def MergeValueL.wf : MergeValueL → Prop
  | .value v => v.length = 32
  | .mergeWithZero b z _ => b.length = 32 ∧ z.length = 32
  | .shortCut k v _ => k.length = 32 ∧ v.length = 32

/-- C6: node codec round-trip — for every well-formed branch node of the
append-only scheme (tags 0-3) and of the live scheme (tags 0-8, covering
`Value`, `MergeWithZero` and `ShortCut` children), decoding the encoding
returns the original node. -/
theorem spec_c6_codec_round_trip :
    (∀ n : BranchNodeAO, n.left.wf → n.right.wf →
      sliceToBranchNodeAO (branchNodeToVecAO n) = some n) ∧
    (∀ n : BranchNodeL, n.left.wf → n.right.wf →
      sliceToBranchNodeL (branchNodeToVecL n) = some n) := by
  constructor
  · rintro ⟨left, right⟩ hl hr
    cases left with
    | value lv =>
      cases right with
      | value rv =>
        simp only [MergeValueAO.wf] at hl hr
        simp [branchNodeToVecAO, sliceToBranchNodeAO, extract,
          List.drop_append_eq_append_drop, List.take_append_eq_append_take,
          List.getD_eq_getElem?_getD, List.getElem?_append, List.getElem_append, List.drop_eq_nil_of_le, List.take_of_length_le, hl, hr]
      | mergeWithZero b z c v =>
        simp only [MergeValueAO.wf] at hl hr
        obtain ⟨hb, hz, hv⟩ := hr
        simp [branchNodeToVecAO, sliceToBranchNodeAO, extract,
          List.drop_append_eq_append_drop, List.take_append_eq_append_take,
          List.getD_eq_getElem?_getD, List.getElem?_append, List.getElem_append, List.drop_eq_nil_of_le, List.take_of_length_le,
          hl, hb, hz, hv]
    | mergeWithZero b z c v =>
      simp only [MergeValueAO.wf] at hl
      obtain ⟨hb, hz, hv⟩ := hl
      cases right with
      | value rv =>
        simp only [MergeValueAO.wf] at hr
        simp [branchNodeToVecAO, sliceToBranchNodeAO, extract,
          List.drop_append_eq_append_drop, List.take_append_eq_append_take,
          List.getD_eq_getElem?_getD, List.getElem?_append, List.getElem_append, List.drop_eq_nil_of_le, List.take_of_length_le,
          hb, hz, hv, hr]
      | mergeWithZero rb rz rc rv =>
        simp only [MergeValueAO.wf] at hr
        obtain ⟨hrb, hrz, hrv⟩ := hr
        simp [branchNodeToVecAO, sliceToBranchNodeAO, extract,
          List.drop_append_eq_append_drop, List.take_append_eq_append_take,
          List.getD_eq_getElem?_getD, List.getElem?_append, List.getElem_append, List.drop_eq_nil_of_le, List.take_of_length_le,
          hb, hz, hv, hrb, hrz, hrv]
  · rintro ⟨left, right⟩ hl hr
    cases left with
    | value lv =>
      cases right with
      | value rv =>
        simp only [MergeValueL.wf] at hl hr
        simp [branchNodeToVecL, sliceToBranchNodeL, extract,
          List.drop_append_eq_append_drop, List.take_append_eq_append_take,
          List.getD_eq_getElem?_getD, List.getElem?_append, List.getElem_append, List.drop_eq_nil_of_le, List.take_of_length_le, hl, hr]
      | mergeWithZero b z c =>
        simp only [MergeValueL.wf] at hl hr
        obtain ⟨hb, hz⟩ := hr
        simp [branchNodeToVecL, sliceToBranchNodeL, extract,
          List.drop_append_eq_append_drop, List.take_append_eq_append_take,
          List.getD_eq_getElem?_getD, List.getElem?_append, List.getElem_append, List.drop_eq_nil_of_le, List.take_of_length_le,
          hl, hb, hz]
      | shortCut k v h =>
        simp only [MergeValueL.wf] at hl hr
        obtain ⟨hk, hv⟩ := hr
        simp [branchNodeToVecL, sliceToBranchNodeL, extract,
          List.drop_append_eq_append_drop, List.take_append_eq_append_take,
          List.getD_eq_getElem?_getD, List.getElem?_append, List.getElem_append, List.drop_eq_nil_of_le, List.take_of_length_le,
          hl, hk, hv]
    | mergeWithZero b z c =>
      simp only [MergeValueL.wf] at hl
      obtain ⟨hb, hz⟩ := hl
      cases right with
      | value rv =>
        simp only [MergeValueL.wf] at hr
        simp [branchNodeToVecL, sliceToBranchNodeL, extract,
          List.drop_append_eq_append_drop, List.take_append_eq_append_take,
          List.getD_eq_getElem?_getD, List.getElem?_append, List.getElem_append, List.drop_eq_nil_of_le, List.take_of_length_le,
          hb, hz, hr]
      | mergeWithZero rb rz rc =>
        simp only [MergeValueL.wf] at hr
        obtain ⟨hrb, hrz⟩ := hr
        simp [branchNodeToVecL, sliceToBranchNodeL, extract,
          List.drop_append_eq_append_drop, List.take_append_eq_append_take,
          List.getD_eq_getElem?_getD, List.getElem?_append, List.getElem_append, List.drop_eq_nil_of_le, List.take_of_length_le,
          hb, hz, hrb, hrz]
      | shortCut rk rv rh =>
        simp only [MergeValueL.wf] at hr
        obtain ⟨hrk, hrv⟩ := hr
        simp [branchNodeToVecL, sliceToBranchNodeL, extract,
          List.drop_append_eq_append_drop, List.take_append_eq_append_take,
          List.getD_eq_getElem?_getD, List.getElem?_append, List.getElem_append, List.drop_eq_nil_of_le, List.take_of_length_le,
          hb, hz, hrk, hrv]
    | shortCut k v h =>
      simp only [MergeValueL.wf] at hl
      obtain ⟨hk, hv⟩ := hl
      cases right with
      | value rv =>
        simp only [MergeValueL.wf] at hr
        simp [branchNodeToVecL, sliceToBranchNodeL, extract,
          List.drop_append_eq_append_drop, List.take_append_eq_append_take,
          List.getD_eq_getElem?_getD, List.getElem?_append, List.getElem_append, List.drop_eq_nil_of_le, List.take_of_length_le,
          hk, hv, hr]
      | mergeWithZero rb rz rc =>
        simp only [MergeValueL.wf] at hr
        obtain ⟨hrb, hrz⟩ := hr
        simp [branchNodeToVecL, sliceToBranchNodeL, extract,
          List.drop_append_eq_append_drop, List.take_append_eq_append_take,
          List.getD_eq_getElem?_getD, List.getElem?_append, List.getElem_append, List.drop_eq_nil_of_le, List.take_of_length_le,
          hk, hv, hrb, hrz]
      | shortCut rk rv rh =>
        simp only [MergeValueL.wf] at hr
        obtain ⟨hrk, hrv⟩ := hr
        simp [branchNodeToVecL, sliceToBranchNodeL, extract,
          List.drop_append_eq_append_drop, List.take_append_eq_append_take,
          List.getD_eq_getElem?_getD, List.getElem?_append, List.getElem_append, List.drop_eq_nil_of_le, List.take_of_length_le,
          hk, hv, hrk, hrv]

/-- A concrete append-only-scheme node for the C6 witness. -/
def c6NodeAO : BranchNodeAO :=
  ⟨.value (List.replicate 32 1),
   .mergeWithZero (List.replicate 32 2) (List.replicate 32 3) 5 (List.replicate 32 4)⟩

/-- A concrete live-scheme node for the C6 witness. -/
def c6NodeL : BranchNodeL :=
  ⟨.shortCut (List.replicate 32 1) (List.replicate 32 2) 7,
   .mergeWithZero (List.replicate 32 3) (List.replicate 32 4) 9⟩

/-- C6, witness: the round-trip evaluated on concrete nodes of each
scheme. -/
theorem spec_c6_witness :
    sliceToBranchNodeAO (branchNodeToVecAO c6NodeAO) = some c6NodeAO ∧
    sliceToBranchNodeL (branchNodeToVecL c6NodeL) = some c6NodeL :=
  ⟨spec_c6_codec_round_trip.1 c6NodeAO (by simp [c6NodeAO, MergeValueAO.wf])
      (by simp [c6NodeAO, MergeValueAO.wf]),
   spec_c6_codec_round_trip.2 c6NodeL (by simp [c6NodeL, MergeValueL.wf])
      (by simp [c6NodeL, MergeValueL.wf])⟩
